import Mathlib

/-!
Shallow embedding of the haiku composition engine of `src/src/App.tsx`
(GPJ-Prototypes/Haiku-Generator), together with theorems settling the
claims about it.

External collaborators (the RiTa linguistic library: syllable breakdowns,
tokenisation, POS tagging) are modelled as an abstract `Ext` record of
functions; everything else is translated directly from the TypeScript
source.  JavaScript string operations are modelled at the character-list
level (ASCII-faithful), the mulberry32 generator as explicit 32-bit `Nat`
state threading, and the floating-point comparisons `rand() < 0.42`,
`rand() < 0.5` and `Math.floor(rand() * n)` as the exact rational
comparisons on the 32-bit numerator they are computed from.
JavaScript `Array.prototype.sort` (stable, ES2019) is modelled by
`List.insertionSort`, which is stable for the non-strict comparators used
here; stable sorting under a total preorder is uniquely determined, so the
choice of stable sorting algorithm does not affect the result.
-/

namespace Haiku

/-! ## Seeded RNG: mulberry32 (lines 30-40 of App.tsx) -/

/-- Truncation to 32 bits, as performed by JavaScript bitwise operators. -/
def mask32 (n : Nat) : Nat := n % 4294967296

/-- One step of the mulberry32 generator: returns the 32-bit numerator of the
produced float (the float is `r / 2^32`) and the updated state. -/
def mbNext (t : Nat) : Nat × Nat :=
  let t1 := mask32 (t + 0x6D2B79F5)
  let r1 := mask32 ((t1 ^^^ (t1 >>> 15)) * (1 ||| t1))
  let r2 := r1 ^^^ mask32 (r1 + mask32 ((r1 ^^^ (r1 >>> 7)) * (61 ||| r1)))
  (r2 ^^^ (r2 >>> 14), t1)

/-- Exact model of `rand() < 0.42`: `r / 2^32 < 42/100`. -/
def lt042 (r : Nat) : Bool := 100 * r < 180388626432

/-- Exact model of `rand() < 0.5`: `r / 2^32 < 1/2`. -/
def lt05 (r : Nat) : Bool := r < 2147483648

/-- Model of `pick(rand, arr, fallback)` (line 39-40): draws one random value
only when the array is non-empty, and indexes with `Math.floor(rand()*len)`. -/
def pick (t : Nat) (arr : List String) (fb : String) : String × Nat :=
  if arr.isEmpty then (fb, t)
  else
    let p := mbNext t
    (arr.getD (p.1 * arr.length / 4294967296) fb, p.2)

/-! ## Character-level string helpers (JavaScript semantics, ASCII) -/

/-- ASCII lower-casing of a character, as `String.prototype.toLowerCase`
acts on ASCII input. -/
def lowerChar (c : Char) : Char :=
  if 65 ≤ c.toNat ∧ c.toNat ≤ 90 then Char.ofNat (c.toNat + 32) else c

/-- ASCII lower-casing of a string. -/
def lowerStr (s : String) : String := String.mk (s.data.map lowerChar)

/-- Worker for `wsTokens`: accumulates the current (reversed) run of
non-whitespace characters. -/
def wsTokensGo : List Char → List Char → List (List Char)
  | acc, [] => if acc.isEmpty then [] else [acc.reverse]
  | acc, c :: cs =>
    if c.isWhitespace then
      if acc.isEmpty then wsTokensGo [] cs else acc.reverse :: wsTokensGo [] cs
    else wsTokensGo (c :: acc) cs

/-- Maximal runs of non-whitespace characters: the semantics of
`s.split(/\s+/).filter(Boolean)` in JavaScript. -/
def wsTokens (cs : List Char) : List (List Char) := wsTokensGo [] cs

/-- Worker for `splitChar`. -/
def splitCharGo (sep : Char) : List Char → List Char → List (List Char)
  | acc, [] => [acc.reverse]
  | acc, c :: cs =>
    if c = sep then acc.reverse :: splitCharGo sep [] cs
    else splitCharGo sep (c :: acc) cs

/-- Semantics of JavaScript `s.split(sep)` for a one-character separator:
splits at every occurrence, keeping empty segments. -/
def splitChar (sep : Char) (cs : List Char) : List (List Char) :=
  splitCharGo sep [] cs

/-- Character-level worker for `joinSep`: the parts separated by single
separator characters. -/
def joinParts (sep : Char) : List (List Char) → List Char
  | [] => []
  | [d] => d
  | d :: e :: rest => d ++ sep :: joinParts sep (e :: rest)

/-- Model of `Array.prototype.join(sep)` for a one-character separator. -/
def joinSep (sep : Char) (ws : List String) : String :=
  String.mk (joinParts sep (ws.map String.data))

/-- Decides whether the first list is a leading segment of the second. -/
def listLeads : List Char → List Char → Bool
  | [], _ => true
  | _ :: _, [] => false
  | a :: as, b :: bs => a = b && listLeads as bs

/-- Model of `s.startsWith(pre)`. -/
def strLeads (pre s : String) : Bool := listLeads pre.data s.data

/-- Model of `s.includes(sub)`: substring containment. -/
def strContains (s sub : String) : Bool :=
  (List.range (s.data.length + 1)).any (fun i => listLeads sub.data (s.data.drop i))

/-! ## External linguistic services (RiTa), modelled abstractly -/

/-- The external RiTa services used by the engine: `RiTa.syllables` (a
slash-separated breakdown, or an unusable result modelled as `none`),
`RiTa.tokenize` and `RiTa.pos`. -/
structure Ext where
  syllables : String → Option String
  tokenize : String → List String
  posTags : List String → List String

/-- Whether the word contains an ASCII letter: the `/[a-z]/i` test of
`syllablesInWord`; an empty string also fails it. -/
def hasAlpha (w : String) : Bool := w.data.any Char.isAlpha

/-- Model of `syllablesInWord` (lines 43-49): 0 for non-word input or an
unusable oracle result, otherwise the number of non-empty slash-separated
segments with a floor of 1. -/
def syllablesInWord (ext : Ext) (word : String) : Nat :=
  if !hasAlpha word then 0
  else
    match ext.syllables word with
    | none => 0
    | some s =>
      let n := ((splitChar '/' s.data).filter (fun seg => !seg.isEmpty)).length
      if 0 < n then n else 1

/-- Indexes a list from a starting position, mirroring a `for (let i ...)`
loop over the array. -/
def withIdx : Nat → List String → List (Nat × String)
  | _, [] => []
  | i, w :: ws => (i, w) :: withIdx (i + 1) ws

/-- Model of `imageryWords` (lines 56-67): keep the lower-cased token when
its POS tag starts with nn or jj and it is not in the stoplist. -/
def imageryWords (ext : Ext) (text : String) : List String :=
  let tokens := ext.tokenize text
  let tags := ext.posTags tokens
  (withIdx 0 tokens).filterMap (fun p =>
    let t := lowerStr p.2
    let tag := lowerStr (tags.getD p.1 "")
    if (strLeads "nn" tag || strLeads "jj" tag) && !(t = "other" || t = "another") then
      some t
    else none)

/-! ## Topic tables (lines 70-93) -/

/-- The closed set of topics. -/
inductive TopicKey where
  | beach | forest | mountain | snow | city | generic
deriving DecidableEq, Repr

/-- Keyword lists for topic classification (lines 71-78). -/
def TOPIC_KEYWORDS : TopicKey → List String
  | .beach => ["beach", "ocean", "sea", "sand", "sandy", "dune", "tide", "wave", "waves",
      "surf", "shore", "sunblock", "sunglasses", "volleyball", "seagull", "pelican", "pier"]
  | .forest => ["forest", "woods", "pine", "pines", "fir", "trail", "moss", "fern", "ferns",
      "brook"]
  | .mountain => ["mountain", "peak", "peaks", "ridge", "summit", "alpine", "scree", "cliff"]
  | .snow => ["snow", "ice", "frost", "winter", "icicle", "blizzard", "white", "hush"]
  | .city => ["city", "street", "streets", "subway", "traffic", "neon", "pavement", "market",
      "downtown", "skyline"]
  | .generic => []

/-- Per-topic vocabulary: two filler tiers, nouns, banned words, kigo phrases.
Optional fields of the source are empty lists here (the source reads them
with a `|| []` default). -/
structure Fillers where
  f1 : List String
  f2 : List String
  nouns : List String
  banned : List String
  kigo : List String

/-- The vocabulary tables of lines 79-93. -/
def TOPIC_FILLERS : TopicKey → Fillers
  | .beach =>
    { f1 := ["warm", "bright", "soft", "salt", "cool", "clear"]
      f2 := ["sunlit", "silver", "quiet"]
      nouns := ["ocean", "sea", "shore", "sand", "dune", "dunes", "tide", "tides", "wave",
        "waves", "foam", "surf", "shell", "shells", "seagull", "seagulls", "sunglasses",
        "sunblock", "volleyball", "umbrella", "boardwalk", "pier"]
      banned := ["snow", "ice", "winter", "icicle", "frost", "drifts", "white", "hush"]
      kigo := ["hot sand", "salt wind", "bright noon", "summer heat"] }
  | .forest =>
    { f1 := ["green", "soft", "moss", "pine", "fern"]
      f2 := ["quiet", "shadow"]
      nouns := ["pines", "moss", "fern", "ferns", "trail", "shade", "needles", "trunk",
        "leaf", "leaves", "understory", "brook"]
      banned := []
      kigo := ["spring rain", "green shade"] }
  | .mountain =>
    { f1 := ["thin", "high", "cold", "clear"]
      f2 := ["silent", "autumn"]
      nouns := ["ridge", "peaks", "summit", "scree", "cliff", "crag", "alpine"]
      banned := []
      kigo := ["autumn wind", "cold moon"] }
  | .snow =>
    { f1 := ["white", "cold", "still"]
      f2 := ["winter", "silent"]
      nouns := ["snow", "drifts", "ice", "icicle", "frost", "tracks", "breath"]
      banned := []
      kigo := ["winter dusk", "snow hush", "cold moon"] }
  | .city =>
    { f1 := ["neon", "warm", "late"]
      f2 := ["silver", "quiet"]
      nouns := ["street", "streets", "traffic", "neon", "pavement", "window", "windows",
        "market", "skyline"]
      banned := []
      kigo := ["summer heat", "night lights"] }
  | .generic =>
    { f1 := ["still", "soft", "near", "calm", "slow"]
      f2 := ["quiet", "silver", "softly"]
      nouns := ["river", "stones", "reeds", "shore", "forest", "wind", "shadow", "moon",
        "water"]
      banned := []
      kigo := [] }

/-- Declaration order of the topics, the insertion order of the source
object literals. -/
def topicOrder : List TopicKey :=
  [.beach, .forest, .mountain, .snow, .city, .generic]

/-- Score of one topic (the `reduce` of line 99): over each keyword, +2 for
an exact lower-cased token match, +1 more when any token contains the
keyword as a substring. -/
def topicScore (tokens : List String) (k : TopicKey) : Nat :=
  let lower := tokens.map lowerStr
  (TOPIC_KEYWORDS k).foldl
    (fun s kw =>
      s + (if lower.contains kw then 2 else 0) +
        (if lower.any (fun t => strContains t kw) then 1 else 0))
    0

/-- Model of `scoreTopic` (lines 94-103): stable-sort the entries by
descending score and take the first, with a generic fallback when the best
score is 0. -/
def scoreTopic (tokens : List String) : TopicKey :=
  let entries := topicOrder.map (fun k => (k, topicScore tokens k))
  let sorted := List.insertionSort (fun a b : TopicKey × Nat => b.2 ≤ a.2) entries
  match sorted.head? with
  | some best => if 0 < best.2 then best.1 else .generic
  | none => .generic

/-! ## Glue words and the natural packer (lines 106-144) -/

/-- The fixed glue-word list of line 106 (with its duplicated final entry). -/
def GLUE_WORDS : List String :=
  ["the", "a", "in", "on", "by", "with", "of", "to", "and", "at", "near", "under", "over",
    "through", "into", "from", "for", "as", "where", "along", "over"]

/-- Model of `isGlue` (line 108). -/
def isGlue (w : String) : Bool := GLUE_WORDS.contains (lowerStr w)

/-- Nat form of `Math.ceil(m * 0.6)`, which equals the ceiling of `3m/5`
for all argument sizes reachable here. -/
def ceil06 (m : Nat) : Nat := (3 * m + 4) / 5

/-- Nat form of `Math.ceil(n * 0.5)`. -/
def ceilHalf (n : Nat) : Nat := (n + 1) / 2

/-- Stable ascending sort by syllable count: the
`sort((a, b) => syllablesInWord(a) - syllablesInWord(b))` of lines 113-114. -/
def sylSort (syl : String → Nat) (l : List String) : List String :=
  List.insertionSort (fun a b => syl a ≤ syl b) l

/-- The per-step decision whether to attempt a glue word (line 118): draws
a random value only when the line is non-empty. -/
def glueDecision (words : List String) (t : Nat) : Bool × Nat :=
  if words.isEmpty then (false, t)
  else
    let p := mbNext t
    (lt042 p.1, p.2)

/-- The word-selection step of the growth loop (lines 122-134): filter the
chosen source to fitting words with non-zero count, fall back to the other
source filtered only by budget, and prefer 1-syllable then 2-syllable
words; `none` models the `break` of line 127. -/
def natChoose (syl : String → Nat) (imagerySorted glueSorted : List String)
    (target acc : Nat) (addGlue : Bool) (t : Nat) : Option (String × Nat) :=
  let source := if addGlue then glueSorted else imagerySorted
  let fits := source.filter (fun w => decide (0 < syl w) && decide (acc + syl w ≤ target))
  if fits.isEmpty then
    let alt := (if addGlue then imagerySorted else glueSorted).filter
      (fun w => decide (acc + syl w ≤ target))
    if alt.isEmpty then none
    else some (pick t alt (alt.headD ""))
  else
    let short := fits.filter (fun w => decide (syl w = 1))
    let two := fits.filter (fun w => decide (syl w = 2))
    let pickPool := if !short.isEmpty then short else if !two.isEmpty then two else fits
    some (pick t pickPool (pickPool.headD ""))

/-- One growth phase of `packNatural` (the `while (syl < target && guard++ < 160)`
loop, lines 120-135), with the guard counter as structural fuel.  Returns the
accumulated words, their syllable total, and the RNG state. -/
def natGrow (syl : String → Nat) (imagerySorted glueSorted : List String) (target : Nat) :
    Nat → List String → Nat → Nat → List String × Nat × Nat
  | 0, words, acc, t => (words, acc, t)
  | fuel + 1, words, acc, t =>
    if acc < target then
      let d := glueDecision words t
      if d.1 && isGlue (words.getLastD "") then
        natGrow syl imagerySorted glueSorted target fuel words acc d.2
      else
        match natChoose syl imagerySorted glueSorted target acc d.1 d.2 with
        | none => (words, acc, d.2)
        | some q =>
          natGrow syl imagerySorted glueSorted target fuel (words ++ [q.1]) (acc + syl q.1) q.2
    else (words, acc, t)

/-- The attempt loop of `packNatural` (up to 36 attempts, lines 116-142):
each attempt grows a line from empty and keeps it when it hits the target
exactly and satisfies the naturalness constraints of line 139. -/
def natAttempts (syl : String → Nat) (imagerySorted glueSorted : List String)
    (target minWords : Nat) : Nat → Nat → Option (List String) × Nat
  | 0, t => (none, t)
  | n + 1, t =>
    let g := natGrow syl imagerySorted glueSorted target 160 [] 0 t
    let words := g.1
    let acc := g.2.1
    let t1 := g.2.2
    if acc = target then
      let imageryCount := (words.filter (fun w => !isGlue w)).length
      let glueCount := words.length - imageryCount
      if decide (minWords ≤ words.length) && decide (ceil06 minWords ≤ imageryCount) &&
          decide (glueCount ≤ ceilHalf words.length) then
        (some words, t1)
      else natAttempts syl imagerySorted glueSorted target minWords n t1
    else natAttempts syl imagerySorted glueSorted target minWords n t1

/-- Model of `packNatural` (lines 110-144).  The `topic` parameter is
present in the source signature but unused by its body. -/
def packNatural (syl : String → Nat) (pool : List String) (target : Nat) (topic : TopicKey)
    (t : Nat) (minWords : Nat) : Option (List String) × Nat :=
  natAttempts syl (sylSort syl pool) (sylSort syl GLUE_WORDS) target minWords 36 t

/-! ## Exact packer (lines 145-179) -/

/-- One greedy pass of `packExact` over the rotated pool (lines 155-161):
takes each unused word with non-zero count that fits the remaining budget. -/
def scanPass (syl : String → Nat) (target : Nat) :
    List (Nat × String) → List String → List Nat → Nat → List String × List Nat × Nat
  | [], line, used, acc => (line, used, acc)
  | (i, w) :: rest, line, used, acc =>
    if acc < target then
      if used.contains i then scanPass syl target rest line used acc
      else
        let s := syl w
        if s = 0 then scanPass syl target rest line used acc
        else if acc + s ≤ target then scanPass syl target rest (line ++ [w]) (i :: used) (acc + s)
        else scanPass syl target rest line used acc
    else (line, used, acc)

/-- The deficit-filling step of `packExact` (lines 163-174): close the gap
with a filler of exactly the needed count, else approximate with a
2-syllable (needing at least 2) or 1-syllable filler. -/
def fillerStep (syl : String → Nat) (fillers : List String) (target : Nat)
    (line : List String) (acc t : Nat) : List String × Nat × Nat :=
  let need := target - acc
  let exact := fillers.filter (fun w => decide (syl w = need))
  if !exact.isEmpty then
    let q := pick t exact (exact.headD "")
    (line ++ [q.1], target, q.2)
  else if 2 ≤ need then
    let twos := fillers.filter (fun w => decide (syl w = 2))
    if !twos.isEmpty then
      let q := pick t twos (twos.headD "")
      (line ++ [q.1], acc + 2, q.2)
    else (line, acc, t)
  else
    let ones := fillers.filter (fun w => decide (syl w = 1))
    if !ones.isEmpty then
      let q := pick t ones (ones.headD "")
      (line ++ [q.1], acc + 1, q.2)
    else (line, acc, t)

/-- One attempt of `packExact`: the two-pass loop of lines 154-175,
returning the line when the accumulated count hits the target exactly. -/
def exactAttempt (syl : String → Nat) (fillers : List String) (target : Nat)
    (rotated : List String) (t : Nat) : Option (List String) × Nat :=
  let p1 := scanPass syl target (withIdx 0 rotated) [] [] 0
  if p1.2.2 = target then (some p1.1, t)
  else
    let f1 := fillerStep syl fillers target p1.1 p1.2.2 t
    if f1.2.1 = target then (some f1.1, f1.2.2)
    else
      let p2 := scanPass syl target (withIdx 0 rotated) f1.1 p1.2.1 f1.2.1
      if p2.2.2 = target then (some p2.1, f1.2.2)
      else
        let f2 := fillerStep syl fillers target p2.1 p2.2.2 f1.2.2
        if f2.2.1 = target then (some f2.1, f2.2.2) else (none, f2.2.2)

/-- The attempt loop of `packExact` (lines 148-177), up to 6 attempts, each
rotating the pool by `attempt*3 + floor(rand()*3)`. -/
def exactAttempts (syl : String → Nat) (fillers : List String) (pool : List String)
    (target : Nat) : Nat → Nat → Nat → Option (List String) × Nat
  | 0, _, t => (none, t)
  | n + 1, attempt, t =>
    let p := mbNext t
    let shift := attempt * 3 + p.1 * 3 / 4294967296
    let rotated := if pool.isEmpty then [] else pool.drop shift ++ pool.take shift
    let a := exactAttempt syl fillers target rotated p.2
    match a.1 with
    | some line => (some line, a.2)
    | none => exactAttempts syl fillers pool target n (attempt + 1) a.2

/-- Model of `packExact` (lines 145-179). -/
def packExact (syl : String → Nat) (pool : List String) (target : Nat) (topic : TopicKey)
    (t : Nat) : Option (List String) × Nat :=
  let fl := TOPIC_FILLERS topic
  exactAttempts syl (fl.f1 ++ fl.f2) pool target 6 0 t

/-! ## Loose fallback, pool building, composition (lines 182-215) -/

/-- The greedy accumulation of one fallback line (line 204). -/
def looseGo (syl : String → Nat) (target : Nat) : List String → List String → Nat → List String
  | [], out, _ => out
  | w :: rest, out, acc =>
    let s := syl w
    let step : List String × Nat :=
      if acc + s ≤ target then (out ++ [w], acc + s) else (out, acc)
    if step.2 = target then step.1 else looseGo syl target rest step.1 step.2

/-- Model of `fallbackLoose` (lines 200-208): one greedy pass of the raw
imagery words per line, no randomness, no glue words, no banned-word
filtering. -/
def fallbackLoose (ext : Ext) (text : String) : String :=
  let pool := imageryWords ext text
  let syl := syllablesInWord ext
  joinSep '\n' ([5, 7, 5].map (fun tg => joinSep ' ' (looseGo syl tg pool [] 0)))

/-- Case-insensitive deduplication keeping the first occurrence (lines
189-190), with the `seen` set as an accumulator of lower-cased keys. -/
def dedupCI : List String → List String → List String
  | _, [] => []
  | seen, w :: rest =>
    let k := lowerStr w
    if seen.contains k then dedupCI seen rest else w :: dedupCI (k :: seen) rest

/-- The whitespace-split lower-cased raw tokens used for topic scoring
(line 184). -/
def rawTokens (text : String) : List String :=
  (wsTokens (lowerStr text).data).map String.mk

/-- The pool-building prefix of `composeHaikuRiTa` (lines 184-193): topic
classification, banned-word filtering of imagery, topic nouns, case-
insensitive dedup, and an optional kigo-phrase prefix drawn with
probability 0.5. -/
def buildPool (ext : Ext) (text : String) (t : Nat) : List String × TopicKey × Nat :=
  let topic := scoreTopic (rawTokens text)
  let banned := (TOPIC_FILLERS topic).banned.map lowerStr
  let pool := (imageryWords ext text).filter (fun w => !banned.contains w) ++
    (TOPIC_FILLERS topic).nouns
  let uniquePool := dedupCI [] pool
  let kigo := (TOPIC_FILLERS topic).kigo
  let kt : List String × Nat :=
    if kigo.isEmpty then ([], t)
    else
      let p := mbNext t
      if lt05 p.1 then
        let q := pick p.2 kigo (kigo.headD "")
        ((splitChar ' ' q.1.data).map String.mk, q.2)
      else ([], p.2)
  (kt.1 ++ uniquePool, topic, kt.2)

/-- One line of the strict path: `packNatural(...) || packExact(...)`
(lines 194-196), with the RNG state threaded through both. -/
def packLine (syl : String → Nat) (pool : List String) (target : Nat) (topic : TopicKey)
    (minWords : Nat) (t : Nat) : Option (List String) × Nat :=
  let r1 := packNatural syl pool target topic t minWords
  match r1.1 with
  | some l => (some l, r1.2)
  | none => packExact syl pool target topic r1.2

/-- The `if (L1 && L2 && L3)` check of line 197: all three lines must have
packed for the strict result to be used. -/
def assemble3 : Option (List String) → Option (List String) → Option (List String) →
    Option (List String × List String × List String)
  | some l1, some l2, some l3 => some (l1, l2, l3)
  | _, _, _ => none

/-- The natural-or-exact path of `composeHaikuRiTa`: `some` of the three
lines when all three succeed, `none` when the loose fallback is taken. -/
def composeStrict (ext : Ext) (text : String) (seed : Nat) :
    Option (List String × List String × List String) :=
  let t0 := mask32 (if seed = 0 then 1 else seed)
  let syl := syllablesInWord ext
  let b := buildPool ext text t0
  let pool := b.1
  let topic := b.2.1
  let r1 := packLine syl pool 5 topic 3 b.2.2
  let r2 := packLine syl pool 7 topic 4 r1.2
  let r3 := packLine syl pool 5 topic 3 r2.2
  assemble3 r1.1 r2.1 r3.1

/-- Model of `composeHaikuRiTa` (lines 182-199): the strict path when all
three lines pack, the loose fallback otherwise. -/
def composeHaikuRiTa (ext : Ext) (text : String) (seed : Nat) : String :=
  match composeStrict ext text seed with
  | some l => joinSep '\n' [joinSep ' ' l.1, joinSep ' ' l.2.1, joinSep ' ' l.2.2]
  | none => fallbackLoose ext text

/-- Model of `countLine` (lines 209-211): sum of syllable counts over the
whitespace-split tokens of a line. -/
def countLine (syl : String → Nat) (line : String) : Nat :=
  ((wsTokens line.data).map (fun cs => syl (String.mk cs))).sum

/-- Model of `count575` (lines 212-215): per-line counts of the first three
newline-separated lines, missing lines read as empty. -/
def count575 (syl : String → Nat) (h : String) : List Nat :=
  let parts := (splitChar '\n' h.data).map String.mk
  [countLine syl (parts.getD 0 ""), countLine syl (parts.getD 1 ""),
    countLine syl (parts.getD 2 "")]

/-! ## Derived notions used to state the claims -/

/-- Total syllable count of a list of words. -/
def sumSyl (syl : String → Nat) (ws : List String) : Nat := (ws.map syl).sum

/-- Whether two adjacent words of a line are both glue words. -/
def adjGlue : List String → Bool
  | a :: b :: rest => (isGlue a && isGlue b) || adjGlue (b :: rest)
  | _ => false

/-- A word-shaped token: non-empty and free of whitespace characters, the
shape every real tokenizer output has; under this condition joining with
spaces and re-splitting is the identity. -/
def wordOK (w : String) : Bool :=
  !w.data.isEmpty && w.data.all (fun c => !c.isWhitespace)

/-- Number of 1-syllable words of a list. -/
def oneCount (syl : String → Nat) (l : List String) : Nat :=
  (l.filter (fun w => decide (syl w = 1))).length

/-- Specification-level topic classifier, transcribed from the words of the
claim: the topic with the strictly highest score, ties broken by the fixed
declaration order (first declared wins), and `generic` whenever the best
score is 0. -/
def classifyTopicSpec (tokens : List String) : TopicKey :=
  let s := topicScore tokens
  let m := max (s .beach) (max (s .forest) (max (s .mountain)
    (max (s .snow) (max (s .city) (s .generic)))))
  if m = 0 then .generic
  else if s .beach = m then .beach
  else if s .forest = m then .forest
  else if s .mountain = m then .mountain
  else if s .snow = m then .snow
  else if s .city = m then .city
  else .generic

/-- First-declared maximum of a non-empty entry list, written as the
element the descending stable sort puts first: the head element is the
first entry whose score is at least every later score. -/
def firstSel : TopicKey × Nat → List (TopicKey × Nat) → TopicKey × Nat
  | x, [] => x
  | x, y :: ys => if (firstSel y ys).2 ≤ x.2 then x else firstSel y ys

/-! ## Concrete external services used to evaluate the claims

`Ext` models the RiTa services abstractly; the following concrete
instances realise them on small fixed vocabularies so that every claim
theorem can be exercised on a computable input. -/

/-- A small syllable table covering the vocabulary the engine can emit. -/
def demoSylCount : List (String × Nat) := [
  ("the", 1), ("a", 1), ("in", 1), ("on", 1), ("by", 1), ("with", 1), ("of", 1), ("to", 1),
  ("and", 1), ("at", 1), ("near", 1), ("under", 2), ("over", 2), ("through", 1),
  ("into", 2), ("from", 1), ("for", 1), ("as", 1), ("where", 1), ("along", 2),
  ("river", 2), ("stones", 1), ("reeds", 1), ("shore", 1), ("forest", 2), ("wind", 1),
  ("shadow", 2), ("moon", 1), ("water", 2),
  ("still", 1), ("soft", 1), ("calm", 1), ("slow", 1), ("quiet", 2), ("silver", 2),
  ("softly", 2),
  ("ocean", 2), ("sea", 1), ("sand", 1), ("dune", 1), ("dunes", 1), ("tide", 1),
  ("tides", 1), ("wave", 1), ("waves", 1), ("foam", 1), ("surf", 1), ("shell", 1),
  ("shells", 1), ("seagull", 2), ("seagulls", 2), ("sunglasses", 3), ("sunblock", 2),
  ("volleyball", 3), ("umbrella", 3), ("boardwalk", 2), ("pier", 1),
  ("warm", 1), ("bright", 1), ("salt", 1), ("cool", 1), ("clear", 1), ("sunlit", 2),
  ("hot", 1), ("noon", 1), ("summer", 2), ("heat", 1),
  ("crashed", 1), ("sky", 1), ("sun", 1), ("cloud", 1), ("sunny", 2), ("meadow", 2)]

/-- A syllable oracle reading the table: a slash-separated breakdown with
as many segments as the table says, unusable (`none`) off the table. -/
def demoOracle (w : String) : Option String :=
  match demoSylCount.lookup w with
  | some 1 => some "x"
  | some 2 => some "x/x"
  | some 3 => some "x/x/x"
  | _ => none

/-- A part-of-speech tagger marking a few nouns and adjectives. -/
def demoPos (w : String) : String :=
  if ["waves", "sand", "sky", "sun", "sea", "cloud", "moon", "wind", "forest", "river",
      "meadow"].contains w then "nn"
  else if ["warm", "bright", "sunny"].contains w then "jj"
  else "xx"

/-- Concrete services: whitespace tokenizer, table oracle, demo tagger. -/
def demoExt : Ext where
  syllables := demoOracle
  tokenize := fun s => (wsTokens s.data).map String.mk
  posTags := fun ts => ts.map demoPos

/-- Syllable counter induced by `demoExt`. -/
def demoSyl : String → Nat := syllablesInWord demoExt

/-- Services whose tagger marks every token a noun: a non-ASCII token then
reaches the lines of the loose fallback with syllable count 0. -/
def extC3 : Ext where
  syllables := demoOracle
  tokenize := fun s => (wsTokens s.data).map String.mk
  posTags := fun ts => ts.map (fun _ => "nn")

/-- Services under which every pool word has 9 syllables and only the word
white has 3: every strict line fails, so composition falls back to the
loose path, whose lines are built from the unfiltered imagery words. -/
def extC7 : Ext where
  syllables := fun w => if w = "white" then some "x/x/x" else some "x/x/x/x/x/x/x/x/x"
  tokenize := fun s => (wsTokens s.data).map String.mk
  posTags := fun ts => ts.map (fun _ => "nn")

/-! # Verification -/

/-! ## Basic lemmas -/

theorem getD_mem {α : Type} : ∀ (l : List α) (i : Nat) (d : α), i < l.length → l.getD i d ∈ l
  | a :: _, 0, _, _ => List.mem_cons_self a _
  | _ :: l, i + 1, d, h =>
    List.mem_cons_of_mem _ (getD_mem l i d (by simpa using Nat.lt_of_succ_lt_succ h))

theorem mbNext_fst_lt (t : Nat) : (mbNext t).1 < 4294967296 := by
  have h32 : (4294967296 : Nat) = 2 ^ 32 := by norm_num
  unfold mbNext
  have hr2 : ∀ a b : Nat, a < 2 ^ 32 → b < 2 ^ 32 → a ^^^ b < 2 ^ 32 := by
    intro a b ha hb; exact Nat.xor_lt_two_pow ha hb
  have hmask : ∀ n : Nat, mask32 n < 2 ^ 32 := by
    intro n; rw [← h32]; exact Nat.mod_lt _ (by norm_num)
  have hshift : ∀ a k : Nat, a < 2 ^ 32 → a >>> k < 2 ^ 32 := by
    intro a k ha
    calc a >>> k ≤ a := by simp [Nat.shiftRight_eq_div_pow]; exact Nat.div_le_self _ _
    _ < 2 ^ 32 := ha
  simp only [h32]
  exact hr2 _ _ (hr2 _ _ (hmask _) (hmask _))
    (hshift _ _ (hr2 _ _ (hmask _) (hmask _)))

theorem pick_fst_mem (t : Nat) (arr : List String) (fb : String) (h : arr ≠ []) :
    (pick t arr fb).1 ∈ arr := by
  unfold pick
  have hne : arr.isEmpty = false := by simpa using h
  rw [hne]
  simp only [Bool.false_eq_true, if_false]
  apply getD_mem
  have hlen : 0 < arr.length := List.length_pos.mpr h
  apply Nat.div_lt_of_lt_mul
  exact (Nat.mul_lt_mul_right hlen).mpr (mbNext_fst_lt t)

theorem sumSyl_nil (syl : String → Nat) : sumSyl syl [] = 0 := rfl

theorem sumSyl_append_single (syl : String → Nat) (ws : List String) (w : String) :
    sumSyl syl (ws ++ [w]) = sumSyl syl ws + syl w := by
  simp [sumSyl]

theorem isGlue_empty : isGlue "" = false := by decide

theorem isGlue_of_mem_glue : ∀ g ∈ GLUE_WORDS, isGlue g = true := by decide

theorem adjGlue_append_single :
    ∀ (ws : List String) (w : String),
      adjGlue (ws ++ [w]) = (adjGlue ws || (isGlue (ws.getLastD "") && isGlue w))
  | [], w => by simp [adjGlue, isGlue_empty]
  | [a], w => by simp [adjGlue]
  | a :: b :: tl, w => by
    have ih := adjGlue_append_single (b :: tl) w
    have e1 : (a :: b :: tl) ++ [w] = a :: ((b :: tl) ++ [w]) := rfl
    have e2 : (b :: tl) ++ [w] = b :: (tl ++ [w]) := rfl
    rw [e1, e2]
    have e3 : adjGlue (a :: b :: (tl ++ [w])) =
        ((isGlue a && isGlue b) || adjGlue (b :: (tl ++ [w]))) := rfl
    have e4 : adjGlue (a :: b :: tl) = ((isGlue a && isGlue b) || adjGlue (b :: tl)) := rfl
    rw [e3, ← e2, ih, e4]
    have e5 : (a :: b :: tl).getLastD "" = (b :: tl).getLastD "" := by
      rw [List.getLastD_cons, List.getLastD_cons, List.getLastD_cons]
    rw [e5, Bool.or_assoc]

theorem filter_length_cons_le {α : Type} (p : α → Bool) (a : α) (l : List α) :
    (l.filter p).length ≤ ((a :: l).filter p).length := by
  rw [List.filter_cons]
  split
  · simp
  · exact Nat.le_refl _

theorem two_glue_of_adjGlue :
    ∀ ws : List String, adjGlue ws = true → 2 ≤ (ws.filter (fun w => isGlue w)).length
  | a :: b :: tl, h => by
    have hstep : adjGlue (a :: b :: tl) = ((isGlue a && isGlue b) || adjGlue (b :: tl)) := rfl
    rw [hstep] at h
    rcases Bool.or_eq_true_iff.mp h with hab | htail
    · obtain ⟨ha, hb⟩ := Bool.and_eq_true_iff.mp hab
      have e1 : (a :: b :: tl).filter (fun w => isGlue w) =
          a :: b :: tl.filter (fun w => isGlue w) := by
        simp [List.filter_cons, ha, hb]
      rw [e1]
      simp only [List.length_cons]
      omega
    · have ih := two_glue_of_adjGlue (b :: tl) htail
      have hmono := filter_length_cons_le (fun w => isGlue w) a (b :: tl)
      omega

theorem sumSyl_lower (syl : String → Nat) :
    ∀ ws : List String,
      (∀ w ∈ ws, (isGlue w = true → 1 ≤ syl w) ∧ (isGlue w = false → 2 ≤ syl w)) →
      2 * (ws.filter (fun w => !isGlue w)).length + (ws.filter (fun w => isGlue w)).length ≤
        sumSyl syl ws := by
  intro ws
  induction ws with
  | nil => intro _; simp [sumSyl]
  | cons a tl ih =>
    intro h
    have ha := h a (List.mem_cons_self a tl)
    have htl := ih (fun w hw => h w (List.mem_cons_of_mem a hw))
    have hsum : sumSyl syl (a :: tl) = syl a + sumSyl syl tl := by simp [sumSyl]
    rw [hsum]
    by_cases hga : isGlue a = true
    · have h1 := ha.1 hga
      have e1 : (a :: tl).filter (fun w => !isGlue w) = tl.filter (fun w => !isGlue w) := by
        simp [List.filter_cons, hga]
      have e2 : (a :: tl).filter (fun w => isGlue w) =
          a :: tl.filter (fun w => isGlue w) := by
        simp [List.filter_cons, hga]
      rw [e1, e2, List.length_cons]
      omega
    · have hga' : isGlue a = false := by simpa using hga
      have h2 := ha.2 hga'
      have e1 : (a :: tl).filter (fun w => !isGlue w) =
          a :: tl.filter (fun w => !isGlue w) := by
        simp [List.filter_cons, hga']
      have e2 : (a :: tl).filter (fun w => isGlue w) = tl.filter (fun w => isGlue w) := by
        simp [List.filter_cons, hga']
      rw [e1, e2, List.length_cons]
      omega

/-! ## Lemmas about the growth step of the natural packer -/

/-- Characterisation of a successful selection step: either the word came
from the primary source (filtered to non-zero fitting words), or that
filter was empty and the word came from the other source filtered only by
budget. -/
theorem natChoose_char {syl : String → Nat} {img glue : List String} {target acc : Nat}
    {addGlue : Bool} {t : Nat} {w : String} {t2 : Nat}
    (h : natChoose syl img glue target acc addGlue t = some (w, t2)) :
    (w ∈ (if addGlue then glue else img) ∧ 0 < syl w ∧ acc + syl w ≤ target) ∨
      (((if addGlue then glue else img).filter
          (fun w => decide (0 < syl w) && decide (acc + syl w ≤ target))).isEmpty = true ∧
        w ∈ (if addGlue then img else glue) ∧ acc + syl w ≤ target) := by
  unfold natChoose at h
  set fits := (if addGlue then glue else img).filter
    (fun w => decide (0 < syl w) && decide (acc + syl w ≤ target)) with hfits
  by_cases h1 : fits.isEmpty
  · rw [if_pos h1] at h
    set alt := (if addGlue then img else glue).filter (fun w => decide (acc + syl w ≤ target))
      with halt
    by_cases h2 : alt.isEmpty
    · rw [if_pos h2] at h; cases h
    · rw [if_neg h2] at h
      have hne : alt ≠ [] := by simpa using h2
      have hpq := Option.some.inj h
      have hmem : w ∈ alt := by
        have := pick_fst_mem t alt (alt.headD "") hne
        rw [hpq] at this
        exact this
      rw [halt] at hmem
      have := List.mem_filter.mp hmem
      right
      exact ⟨h1, this.1, by simpa using this.2⟩
  · rw [if_neg h1] at h
    set short := fits.filter (fun w => decide (syl w = 1)) with hshort
    set two := fits.filter (fun w => decide (syl w = 2)) with htwo
    set pickPool := if !short.isEmpty then short else if !two.isEmpty then two else fits
      with hpickPool
    have hsub : pickPool ⊆ fits := by
      rw [hpickPool]
      split
      · rw [hshort]; exact List.filter_subset' fits
      · split
        · rw [htwo]; exact List.filter_subset' fits
        · exact fun x hx => hx
    have hppne : pickPool ≠ [] := by
      rw [hpickPool]
      split
      · next hcond => simpa using hcond
      · split
        · next hcond => simpa using hcond
        · simpa using h1
    have hpq := Option.some.inj h
    have hmem : w ∈ pickPool := by
      have := pick_fst_mem t pickPool (pickPool.headD "") hppne
      rw [hpq] at this
      exact this
    have hmemf : w ∈ fits := hsub hmem
    rw [hfits] at hmemf
    have := List.mem_filter.mp hmemf
    left
    refine ⟨this.1, ?_, ?_⟩
    · have := this.2
      simp only [Bool.and_eq_true, decide_eq_true_eq] at this
      exact this.1
    · have := this.2
      simp only [Bool.and_eq_true, decide_eq_true_eq] at this
      exact this.2

/-! ## Invariants of the growth loop -/

theorem natGrow_sum (syl : String → Nat) (img glue : List String) (target : Nat) :
    ∀ (fuel : Nat) (words : List String) (acc t : Nat), acc = sumSyl syl words →
      (natGrow syl img glue target fuel words acc t).2.1 =
        sumSyl syl (natGrow syl img glue target fuel words acc t).1 := by
  intro fuel
  induction fuel with
  | zero => intro words acc t h; simp only [natGrow]; exact h
  | succ n ih =>
    intro words acc t h
    simp only [natGrow]
    by_cases hlt : acc < target
    · rw [if_pos hlt]
      by_cases hg : ((glueDecision words t).1 && isGlue (words.getLastD "")) = true
      · rw [if_pos hg]
        exact ih words acc (glueDecision words t).2 h
      · rw [if_neg hg]
        cases hc : natChoose syl img glue target acc (glueDecision words t).1
            (glueDecision words t).2 with
        | none => simp only [hc]; exact h
        | some q =>
          simp only [hc]
          apply ih
          rw [sumSyl_append_single, ← h]
    · rw [if_neg hlt]
      exact h

theorem natGrow_all (syl : String → Nat) (img glue : List String) (target : Nat)
    (P : String → Prop)
    (hchoose : ∀ acc addGlue t w t2, acc < target →
      natChoose syl img glue target acc addGlue t = some (w, t2) → P w) :
    ∀ (fuel : Nat) (words : List String) (acc t : Nat), (∀ x ∈ words, P x) →
      ∀ x ∈ (natGrow syl img glue target fuel words acc t).1, P x := by
  intro fuel
  induction fuel with
  | zero =>
    intro words acc t hw x hx
    simp only [natGrow] at hx
    exact hw x hx
  | succ n ih =>
    intro words acc t hw
    simp only [natGrow]
    by_cases hlt : acc < target
    · rw [if_pos hlt]
      by_cases hg : ((glueDecision words t).1 && isGlue (words.getLastD "")) = true
      · rw [if_pos hg]
        exact ih words acc (glueDecision words t).2 hw
      · rw [if_neg hg]
        cases hc : natChoose syl img glue target acc (glueDecision words t).1
            (glueDecision words t).2 with
        | none => simp only [hc]; exact hw
        | some q =>
          simp only [hc]
          apply ih
          intro x hx
          rcases List.mem_append.mp hx with hx1 | hx2
          · exact hw x hx1
          · have hxq : x = q.1 := by simpa using hx2
            rw [hxq]
            exact hchoose acc (glueDecision words t).1 (glueDecision words t).2 q.1 q.2 hlt
              (by rw [hc])
    · rw [if_neg hlt]
      exact hw

theorem natGrow_noadj (syl : String → Nat) (img glue : List String) (target : Nat)
    (himg : ∀ x ∈ img, isGlue x = false)
    (hone : ∃ u ∈ img, syl u = 1) :
    ∀ (fuel : Nat) (words : List String) (acc t : Nat), adjGlue words = false →
      adjGlue (natGrow syl img glue target fuel words acc t).1 = false := by
  intro fuel
  induction fuel with
  | zero => intro words acc t h; simp only [natGrow]; exact h
  | succ n ih =>
    intro words acc t h
    simp only [natGrow]
    by_cases hlt : acc < target
    · rw [if_pos hlt]
      by_cases hg : ((glueDecision words t).1 && isGlue (words.getLastD "")) = true
      · rw [if_pos hg]
        exact ih words acc (glueDecision words t).2 h
      · rw [if_neg hg]
        cases hc : natChoose syl img glue target acc (glueDecision words t).1
            (glueDecision words t).2 with
        | none => simp only [hc]; exact h
        | some q =>
          simp only [hc]
          apply ih
          rw [adjGlue_append_single, h, Bool.false_or]
          cases hadd : (glueDecision words t).1 with
          | true =>
            have hlast : isGlue (words.getLastD "") = false := by
              cases hval : isGlue (words.getLastD "") with
              | false => rfl
              | true => exact absurd (by rw [hadd, hval]; rfl) hg
            rw [hlast, Bool.false_and]
          | false =>
            rw [hadd] at hc
            have hchar := natChoose_char hc
            simp only [Bool.false_eq_true, if_false] at hchar
            rcases hchar with ⟨hmem, _, _⟩ | ⟨hemp, hmem, _⟩
            · rw [himg q.1 hmem, Bool.and_false]
            · obtain ⟨u, hu, husyl⟩ := hone
              have humem : u ∈ img.filter
                  (fun w => decide (0 < syl w) && decide (acc + syl w ≤ target)) := by
                apply List.mem_filter.mpr
                refine ⟨hu, ?_⟩
                simp only [Bool.and_eq_true, decide_eq_true_eq, husyl]
                omega
              rw [List.isEmpty_iff] at hemp
              rw [hemp] at humem
              cases humem
    · rw [if_neg hlt]
      exact h

theorem natGrow_len (syl : String → Nat) (img glue : List String) (target : Nat) :
    ∀ (fuel : Nat) (words : List String) (acc t : Nat),
      (natGrow syl img glue target fuel words acc t).1.length ≤ words.length + fuel := by
  intro fuel
  induction fuel with
  | zero => intro words acc t; simp only [natGrow]; omega
  | succ n ih =>
    intro words acc t
    simp only [natGrow]
    by_cases hlt : acc < target
    · rw [if_pos hlt]
      by_cases hg : ((glueDecision words t).1 && isGlue (words.getLastD "")) = true
      · rw [if_pos hg]
        have := ih words acc (glueDecision words t).2
        omega
      · rw [if_neg hg]
        cases hc : natChoose syl img glue target acc (glueDecision words t).1
            (glueDecision words t).2 with
        | none =>
          simp only [hc]
          show words.length ≤ words.length + (n + 1)
          omega
        | some q =>
          simp only [hc]
          have := ih (words ++ [q.1]) (acc + syl q.1) q.2
          simp only [List.length_append, List.length_cons, List.length_nil] at this
          omega
    · rw [if_neg hlt]
      show words.length ≤ words.length + (n + 1)
      omega

/-! ## Lemmas about packNatural -/

theorem if_bool_true {α : Type} (a b : α) : (if true = true then a else b) = a := rfl

theorem if_bool_false {α : Type} (a b : α) : (if false = true then a else b) = b := rfl

theorem natAttempts_some (syl : String → Nat) (img glue : List String)
    (target minWords : Nat) :
    ∀ (n t : Nat) (ws : List String),
      (natAttempts syl img glue target minWords n t).1 = some ws →
      ∃ t0, (natGrow syl img glue target 160 [] 0 t0).1 = ws ∧
        (natGrow syl img glue target 160 [] 0 t0).2.1 = target ∧
        minWords ≤ ws.length ∧
        ceil06 minWords ≤ (ws.filter (fun w => !isGlue w)).length ∧
        ws.length - (ws.filter (fun w => !isGlue w)).length ≤ ceilHalf ws.length := by
  intro n
  induction n with
  | zero =>
    intro t ws h
    simp only [natAttempts] at h
    cases h
  | succ n ih =>
    intro t ws h
    simp only [natAttempts] at h
    by_cases hacc : (natGrow syl img glue target 160 [] 0 t).2.1 = target
    · rw [if_pos hacc] at h
      by_cases hchk : (decide (minWords ≤ (natGrow syl img glue target 160 [] 0 t).1.length) &&
          decide (ceil06 minWords ≤ ((natGrow syl img glue target 160 [] 0 t).1.filter
            (fun w => !isGlue w)).length) &&
          decide ((natGrow syl img glue target 160 [] 0 t).1.length -
            ((natGrow syl img glue target 160 [] 0 t).1.filter (fun w => !isGlue w)).length ≤
            ceilHalf (natGrow syl img glue target 160 [] 0 t).1.length)) = true
      · rw [if_pos hchk] at h
        simp only [Bool.and_eq_true, decide_eq_true_eq] at hchk
        have hws : (natGrow syl img glue target 160 [] 0 t).1 = ws := by
          simpa using h
        refine ⟨t, hws, hacc, ?_, ?_, ?_⟩
        · rw [← hws]; exact hchk.1.1
        · rw [← hws]; exact hchk.1.2
        · rw [← hws]; exact hchk.2
      · rw [if_neg hchk] at h
        exact ih _ _ h
    · rw [if_neg hacc] at h
      exact ih _ _ h

theorem mem_sylSort (syl : String → Nat) (l : List String) (x : String) :
    x ∈ sylSort syl l ↔ x ∈ l := by
  unfold sylSort
  exact List.mem_insertionSort _

theorem the_mem_glue : "the" ∈ GLUE_WORDS := by decide

theorem packNatural_some_props {syl : String → Nat} {pool : List String}
    {target : Nat} {topic : TopicKey} {t minWords : Nat} {ws : List String}
    (h : (packNatural syl pool target topic t minWords).1 = some ws) :
    sumSyl syl ws = target ∧
      (∀ w ∈ ws, w ∈ pool ∨ w ∈ GLUE_WORDS) ∧
      minWords ≤ ws.length ∧
      ceil06 minWords ≤ (ws.filter (fun w => !isGlue w)).length ∧
      ws.length - (ws.filter (fun w => !isGlue w)).length ≤ ceilHalf ws.length := by
  unfold packNatural at h
  obtain ⟨t0, hws, hacc, h1, h2, h3⟩ := natAttempts_some _ _ _ _ _ _ _ _ h
  refine ⟨?_, ?_, h1, h2, h3⟩
  · have hsum := natGrow_sum syl (sylSort syl pool) (sylSort syl GLUE_WORDS) target
      160 [] 0 t0 rfl
    rw [hws] at hsum
    rw [← hsum]
    exact hacc
  · intro w hw
    have hchoose : ∀ (acc : Nat) (addGlue : Bool) (tr : Nat) (w1 : String) (t2 : Nat),
        acc < target →
        natChoose syl (sylSort syl pool) (sylSort syl GLUE_WORDS) target acc addGlue tr =
          some (w1, t2) →
        w1 ∈ pool ∨ w1 ∈ GLUE_WORDS := by
      intro acc addGlue tr w1 t2 hlt hc
      rcases natChoose_char hc with ⟨hmem, -, -⟩ | ⟨-, hmem, -⟩
      · cases addGlue with
        | true =>
          rw [if_bool_true] at hmem
          exact Or.inr ((mem_sylSort syl GLUE_WORDS w1).mp hmem)
        | false =>
          rw [if_bool_false] at hmem
          exact Or.inl ((mem_sylSort syl pool w1).mp hmem)
      · cases addGlue with
        | true =>
          rw [if_bool_true] at hmem
          exact Or.inl ((mem_sylSort syl pool w1).mp hmem)
        | false =>
          rw [if_bool_false] at hmem
          exact Or.inr ((mem_sylSort syl GLUE_WORDS w1).mp hmem)
    have := natGrow_all syl (sylSort syl pool) (sylSort syl GLUE_WORDS) target
      (fun x => x ∈ pool ∨ x ∈ GLUE_WORDS) hchoose 160 [] 0 t0
      (by intro x hx; cases hx) w
    rw [hws] at this
    exact this hw

theorem packNatural_len {syl : String → Nat} {pool : List String}
    {target : Nat} {topic : TopicKey} {t minWords : Nat} {ws : List String}
    (h : (packNatural syl pool target topic t minWords).1 = some ws) :
    ws.length ≤ 160 := by
  unfold packNatural at h
  obtain ⟨t0, hws, -, -, -, -⟩ := natAttempts_some _ _ _ _ _ _ _ _ h
  have := natGrow_len syl (sylSort syl pool) (sylSort syl GLUE_WORDS) target 160 [] 0 t0
  rw [hws] at this
  simpa using this

theorem packNatural_pos {syl : String → Nat} {pool : List String}
    {target : Nat} {topic : TopicKey} {t minWords : Nat} {ws : List String}
    (Hglue : ∀ g ∈ GLUE_WORDS, 1 ≤ syl g) (Hthe : syl "the" = 1)
    (h : (packNatural syl pool target topic t minWords).1 = some ws) :
    ∀ w ∈ ws, 0 < syl w := by
  unfold packNatural at h
  obtain ⟨t0, hws, -, -, -, -⟩ := natAttempts_some _ _ _ _ _ _ _ _ h
  intro w hw
  rw [← hws] at hw
  refine natGrow_all syl (sylSort syl pool) (sylSort syl GLUE_WORDS) target
    (fun x => 0 < syl x) ?_ 160 [] 0 t0 (by intro x hx; cases hx) w hw
  intro acc addGlue tr w1 t2 hlt hc
  rcases natChoose_char hc with ⟨-, hpos, -⟩ | ⟨hemp, hmem, -⟩
  · exact hpos
  · cases addGlue with
    | true =>
      exfalso
      rw [if_bool_true] at hemp
      have hthe : "the" ∈ (sylSort syl GLUE_WORDS).filter
          (fun x => decide (0 < syl x) && decide (acc + syl x ≤ target)) := by
        apply List.mem_filter.mpr
        refine ⟨(mem_sylSort syl GLUE_WORDS "the").mpr the_mem_glue, ?_⟩
        simp only [Bool.and_eq_true, decide_eq_true_eq, Hthe]
        omega
      rw [List.isEmpty_iff] at hemp
      rw [hemp] at hthe
      cases hthe
    | false =>
      rw [if_bool_false] at hmem
      have := Hglue w1 ((mem_sylSort syl GLUE_WORDS w1).mp hmem)
      omega

theorem packNatural_noadj {syl : String → Nat} {pool : List String}
    {target : Nat} {topic : TopicKey} {t minWords : Nat} {ws : List String}
    (Hpool : ∀ w ∈ pool, isGlue w = false)
    (Hglue : ∀ g ∈ GLUE_WORDS, 1 ≤ syl g) (Hthe : syl "the" = 1)
    (Harith : target < 2 * ceil06 minWords + 2)
    (h : (packNatural syl pool target topic t minWords).1 = some ws) :
    adjGlue ws = false := by
  by_cases hone : ∃ u ∈ pool, syl u = 1
  · unfold packNatural at h
    obtain ⟨t0, hws, -, -, -, -⟩ := natAttempts_some _ _ _ _ _ _ _ _ h
    rw [← hws]
    obtain ⟨u, hu, husyl⟩ := hone
    exact natGrow_noadj syl (sylSort syl pool) (sylSort syl GLUE_WORDS) target
      (by intro x hx; exact Hpool x ((mem_sylSort syl pool x).mp hx))
      ⟨u, (mem_sylSort syl pool u).mpr hu, husyl⟩
      160 [] 0 t0 rfl
  · push_neg at hone
    have hprops := packNatural_some_props h
    obtain ⟨hsum, -, -, himgc, -⟩ := hprops
    unfold packNatural at h
    obtain ⟨t0, hws, -, -, -, -⟩ := natAttempts_some _ _ _ _ _ _ _ _ h
    have hall : ∀ w ∈ ws, (isGlue w = true → 1 ≤ syl w) ∧ (isGlue w = false → 2 ≤ syl w) := by
      intro w hw
      rw [← hws] at hw
      refine natGrow_all syl (sylSort syl pool) (sylSort syl GLUE_WORDS) target
        (fun x => (isGlue x = true → 1 ≤ syl x) ∧ (isGlue x = false → 2 ≤ syl x)) ?_
        160 [] 0 t0 (by intro x hx; cases hx) w hw
      intro acc addGlue tr w1 t2 hlt hc
      rcases natChoose_char hc with ⟨hmem, hpos, -⟩ | ⟨hemp, hmem, -⟩
      · cases addGlue with
        | true =>
          rw [if_bool_true] at hmem
          have hg := (mem_sylSort syl GLUE_WORDS w1).mp hmem
          refine ⟨fun _ => Hglue w1 hg, fun hfalse => ?_⟩
          rw [isGlue_of_mem_glue w1 hg] at hfalse
          cases hfalse
        | false =>
          rw [if_bool_false] at hmem
          have hp := (mem_sylSort syl pool w1).mp hmem
          refine ⟨fun htrue => ?_, fun _ => ?_⟩
          · rw [Hpool w1 hp] at htrue; cases htrue
          · have := hone w1 hp
            omega
      · cases addGlue with
        | true =>
          exfalso
          rw [if_bool_true] at hemp
          have hthe : "the" ∈ (sylSort syl GLUE_WORDS).filter
              (fun x => decide (0 < syl x) && decide (acc + syl x ≤ target)) := by
            apply List.mem_filter.mpr
            refine ⟨(mem_sylSort syl GLUE_WORDS "the").mpr the_mem_glue, ?_⟩
            simp only [Bool.and_eq_true, decide_eq_true_eq, Hthe]
            omega
          rw [List.isEmpty_iff] at hemp
          rw [hemp] at hthe
          cases hthe
        | false =>
          rw [if_bool_false] at hmem
          have hg := (mem_sylSort syl GLUE_WORDS w1).mp hmem
          refine ⟨fun _ => Hglue w1 hg, fun hfalse => ?_⟩
          rw [isGlue_of_mem_glue w1 hg] at hfalse
          cases hfalse
    cases hadj : adjGlue ws with
    | false => rfl
    | true =>
      exfalso
      have h2g := two_glue_of_adjGlue ws hadj
      have hlow := sumSyl_lower syl ws hall
      rw [hsum] at hlow
      omega

/-! ## Lemmas about the scan pass of packExact -/

theorem withIdx_map_snd : ∀ (k : Nat) (l : List String), (withIdx k l).map Prod.snd = l := by
  intro k l
  induction l generalizing k with
  | nil => rfl
  | cons a tl ih => simp [withIdx, ih]

theorem withIdx_fst_ge : ∀ (k : Nat) (l : List String) (p : Nat × String),
    p ∈ withIdx k l → k ≤ p.1 := by
  intro k l
  induction l generalizing k with
  | nil => intro p hp; cases hp
  | cons a tl ih =>
    intro p hp
    rcases List.mem_cons.mp hp with hph | hpt
    · rw [hph]
    · have := ih (k + 1) p hpt
      omega

theorem withIdx_pairwise : ∀ (k : Nat) (l : List String),
    (withIdx k l).Pairwise (fun p q => p.1 ≠ q.1) := by
  intro k l
  induction l generalizing k with
  | nil => exact List.Pairwise.nil
  | cons a tl ih =>
    apply List.Pairwise.cons
    · intro q hq
      have := withIdx_fst_ge (k + 1) tl q hq
      simp only []
      omega
    · exact ih (k + 1)

theorem withIdx_length : ∀ (k : Nat) (l : List String), (withIdx k l).length = l.length := by
  intro k l
  induction l generalizing k with
  | nil => rfl
  | cons a tl ih => simp [withIdx, ih]

theorem scanPass_sum (syl : String → Nat) (target : Nat) :
    ∀ (lst : List (Nat × String)) (line : List String) (used : List Nat) (acc : Nat),
      acc = sumSyl syl line →
      (scanPass syl target lst line used acc).2.2 =
        sumSyl syl (scanPass syl target lst line used acc).1 := by
  intro lst
  induction lst with
  | nil => intro line used acc h; simp only [scanPass]; exact h
  | cons p rest ih =>
    intro line used acc h
    obtain ⟨i, w⟩ := p
    simp only [scanPass]
    by_cases hlt : acc < target
    · rw [if_pos hlt]
      by_cases hu : used.contains i
      · rw [if_pos hu]; exact ih line used acc h
      · rw [if_neg hu]
        by_cases hs : syl w = 0
        · rw [if_pos hs]; exact ih line used acc h
        · rw [if_neg hs]
          by_cases hfit : acc + syl w ≤ target
          · rw [if_pos hfit]
            apply ih
            rw [sumSyl_append_single, ← h]
          · rw [if_neg hfit]; exact ih line used acc h
    · rw [if_neg hlt]; exact h

theorem scanPass_mem (syl : String → Nat) (target : Nat) :
    ∀ (lst : List (Nat × String)) (line : List String) (used : List Nat) (acc : Nat),
      ∀ x ∈ (scanPass syl target lst line used acc).1,
        x ∈ line ∨ x ∈ lst.map Prod.snd := by
  intro lst
  induction lst with
  | nil =>
    intro line used acc x hx
    simp only [scanPass] at hx
    exact Or.inl hx
  | cons p rest ih =>
    intro line used acc x hx
    obtain ⟨i, w⟩ := p
    simp only [scanPass] at hx
    by_cases hlt : acc < target
    · rw [if_pos hlt] at hx
      by_cases hu : used.contains i
      · rw [if_pos hu] at hx
        rcases ih line used acc x hx with h1 | h2
        · exact Or.inl h1
        · exact Or.inr (List.mem_cons_of_mem _ h2)
      · rw [if_neg hu] at hx
        by_cases hs : syl w = 0
        · rw [if_pos hs] at hx
          rcases ih line used acc x hx with h1 | h2
          · exact Or.inl h1
          · exact Or.inr (List.mem_cons_of_mem _ h2)
        · rw [if_neg hs] at hx
          by_cases hfit : acc + syl w ≤ target
          · rw [if_pos hfit] at hx
            rcases ih (line ++ [w]) (i :: used) (acc + syl w) x hx with h1 | h2
            · rcases List.mem_append.mp h1 with h3 | h4
              · exact Or.inl h3
              · have : x = w := by simpa using h4
                rw [this]
                exact Or.inr (List.mem_cons_self _ _)
            · exact Or.inr (List.mem_cons_of_mem _ h2)
          · rw [if_neg hfit] at hx
            rcases ih line used acc x hx with h1 | h2
            · exact Or.inl h1
            · exact Or.inr (List.mem_cons_of_mem _ h2)
    · rw [if_neg hlt] at hx
      exact Or.inl hx

theorem scanPass_pos (syl : String → Nat) (target : Nat) :
    ∀ (lst : List (Nat × String)) (line : List String) (used : List Nat) (acc : Nat),
      (∀ x ∈ line, 0 < syl x) →
      ∀ x ∈ (scanPass syl target lst line used acc).1, 0 < syl x := by
  intro lst
  induction lst with
  | nil =>
    intro line used acc hline x hx
    simp only [scanPass] at hx
    exact hline x hx
  | cons p rest ih =>
    intro line used acc hline x hx
    obtain ⟨i, w⟩ := p
    simp only [scanPass] at hx
    by_cases hlt : acc < target
    · rw [if_pos hlt] at hx
      by_cases hu : used.contains i
      · rw [if_pos hu] at hx; exact ih line used acc hline x hx
      · rw [if_neg hu] at hx
        by_cases hs : syl w = 0
        · rw [if_pos hs] at hx; exact ih line used acc hline x hx
        · rw [if_neg hs] at hx
          by_cases hfit : acc + syl w ≤ target
          · rw [if_pos hfit] at hx
            refine ih (line ++ [w]) (i :: used) (acc + syl w) ?_ x hx
            intro y hy
            rcases List.mem_append.mp hy with h1 | h2
            · exact hline y h1
            · have : y = w := by simpa using h2
              rw [this]
              omega
          · rw [if_neg hfit] at hx; exact ih line used acc hline x hx
    · rw [if_neg hlt] at hx
      exact hline x hx

theorem scanPass_acc_le (syl : String → Nat) (target : Nat) :
    ∀ (lst : List (Nat × String)) (line : List String) (used : List Nat) (acc : Nat),
      acc ≤ target → (scanPass syl target lst line used acc).2.2 ≤ target := by
  intro lst
  induction lst with
  | nil => intro line used acc h; simp only [scanPass]; exact h
  | cons p rest ih =>
    intro line used acc h
    obtain ⟨i, w⟩ := p
    simp only [scanPass]
    by_cases hlt : acc < target
    · rw [if_pos hlt]
      by_cases hu : used.contains i
      · rw [if_pos hu]; exact ih line used acc h
      · rw [if_neg hu]
        by_cases hs : syl w = 0
        · rw [if_pos hs]; exact ih line used acc h
        · rw [if_neg hs]
          by_cases hfit : acc + syl w ≤ target
          · rw [if_pos hfit]; exact ih _ _ _ hfit
          · rw [if_neg hfit]; exact ih line used acc h
    · rw [if_neg hlt]; exact h

theorem scanPass_lockstep (syl : String → Nat) (target : Nat) :
    ∀ (lst : List (Nat × String)) (line : List String) (used : List Nat) (acc : Nat),
      (scanPass syl target lst line used acc).1.length + used.length =
        line.length + (scanPass syl target lst line used acc).2.1.length := by
  intro lst
  induction lst with
  | nil => intro line used acc; simp only [scanPass]
  | cons p rest ih =>
    intro line used acc
    obtain ⟨i, w⟩ := p
    simp only [scanPass]
    by_cases hlt : acc < target
    · rw [if_pos hlt]
      by_cases hu : used.contains i
      · rw [if_pos hu]; exact ih line used acc
      · rw [if_neg hu]
        by_cases hs : syl w = 0
        · rw [if_pos hs]; exact ih line used acc
        · rw [if_neg hs]
          by_cases hfit : acc + syl w ≤ target
          · rw [if_pos hfit]
            have := ih (line ++ [w]) (i :: used) (acc + syl w)
            simp only [List.length_append, List.length_cons, List.length_nil] at this
            omega
          · rw [if_neg hfit]; exact ih line used acc
    · rw [if_neg hlt]

theorem scanPass_used_sub (syl : String → Nat) (target : Nat) :
    ∀ (lst : List (Nat × String)) (line : List String) (used : List Nat) (acc : Nat),
      ∀ j ∈ (scanPass syl target lst line used acc).2.1,
        j ∈ used ∨ j ∈ lst.map Prod.fst := by
  intro lst
  induction lst with
  | nil =>
    intro line used acc j hj
    simp only [scanPass] at hj
    exact Or.inl hj
  | cons p rest ih =>
    intro line used acc j hj
    obtain ⟨i, w⟩ := p
    simp only [scanPass] at hj
    by_cases hlt : acc < target
    · rw [if_pos hlt] at hj
      by_cases hu : used.contains i
      · rw [if_pos hu] at hj
        rcases ih line used acc j hj with h1 | h2
        · exact Or.inl h1
        · exact Or.inr (List.mem_cons_of_mem _ h2)
      · rw [if_neg hu] at hj
        by_cases hs : syl w = 0
        · rw [if_pos hs] at hj
          rcases ih line used acc j hj with h1 | h2
          · exact Or.inl h1
          · exact Or.inr (List.mem_cons_of_mem _ h2)
        · rw [if_neg hs] at hj
          by_cases hfit : acc + syl w ≤ target
          · rw [if_pos hfit] at hj
            rcases ih (line ++ [w]) (i :: used) (acc + syl w) j hj with h1 | h2
            · rcases List.mem_cons.mp h1 with h3 | h4
              · rw [h3]
                exact Or.inr (List.mem_cons_self _ _)
              · exact Or.inl h4
            · exact Or.inr (List.mem_cons_of_mem _ h2)
          · rw [if_neg hfit] at hj
            rcases ih line used acc j hj with h1 | h2
            · exact Or.inl h1
            · exact Or.inr (List.mem_cons_of_mem _ h2)
    · rw [if_neg hlt] at hj
      exact Or.inl hj

theorem scanPass_used_nodup (syl : String → Nat) (target : Nat) :
    ∀ (lst : List (Nat × String)) (line : List String) (used : List Nat) (acc : Nat),
      used.Nodup → (scanPass syl target lst line used acc).2.1.Nodup := by
  intro lst
  induction lst with
  | nil =>
    intro line used acc hnd
    simp only [scanPass]
    exact hnd
  | cons p rest ih =>
    intro line used acc hnd
    obtain ⟨i, w⟩ := p
    simp only [scanPass]
    by_cases hlt : acc < target
    · rw [if_pos hlt]
      by_cases hu : used.contains i
      · rw [if_pos hu]
        exact ih line used acc hnd
      · rw [if_neg hu]
        by_cases hs : syl w = 0
        · rw [if_pos hs]
          exact ih line used acc hnd
        · rw [if_neg hs]
          by_cases hfit : acc + syl w ≤ target
          · rw [if_pos hfit]
            refine ih (line ++ [w]) (i :: used) (acc + syl w) ?_
            refine List.nodup_cons.mpr ⟨?_, hnd⟩
            intro hmem
            exact hu (by simpa using hmem)
          · rw [if_neg hfit]
            exact ih line used acc hnd
    · rw [if_neg hlt]
      exact hnd

theorem scanPass_reach (syl : String → Nat) (target : Nat) :
    ∀ (lst : List (Nat × String)) (line : List String) (used : List Nat) (acc : Nat),
      lst.Pairwise (fun p q => p.1 ≠ q.1) →
      (∀ j ∈ used, ∀ p ∈ lst, j ≠ p.1) →
      acc ≤ target →
      target ≤ acc + (lst.filter (fun p => decide (syl p.2 = 1))).length →
      (scanPass syl target lst line used acc).2.2 = target := by
  intro lst
  induction lst with
  | nil =>
    intro line used acc _ _ hle hcnt
    simp only [scanPass]
    simp only [List.filter_nil, List.length_nil] at hcnt
    show acc = target
    omega
  | cons p rest ih =>
    intro line used acc hpw hdisj hle hcnt
    obtain ⟨i, w⟩ := p
    have hpw' := List.pairwise_cons.mp hpw
    simp only [scanPass]
    by_cases hlt : acc < target
    · rw [if_pos hlt]
      by_cases hu : used.contains i
      · exfalso
        have hmem : i ∈ used := by simpa using hu
        exact hdisj i hmem (i, w) (List.mem_cons_self _ _) rfl
      · rw [if_neg hu]
        by_cases hs : syl w = 0
        · rw [if_pos hs]
          apply ih line used acc hpw'.2
            (fun j hj q hq => hdisj j hj q (List.mem_cons_of_mem _ hq)) hle
          have hcne : (decide (syl w = 1)) = false := by
            simp only [decide_eq_false_iff_not]
            omega
          rw [List.filter_cons, hcne, if_bool_false] at hcnt
          exact hcnt
        · rw [if_neg hs]
          by_cases hfit : acc + syl w ≤ target
          · rw [if_pos hfit]
            apply ih (line ++ [w]) (i :: used) (acc + syl w) hpw'.2 ?_ hfit
            · rw [List.filter_cons] at hcnt
              by_cases h1 : syl w = 1
              · have hce : (decide (syl w = 1)) = true := by
                  simp only [decide_eq_true_eq]
                  exact h1
                rw [hce, if_bool_true, List.length_cons] at hcnt
                omega
              · have hcne : (decide (syl w = 1)) = false := by
                  simp only [decide_eq_false_iff_not]
                  exact h1
                rw [hcne, if_bool_false] at hcnt
                omega
            · intro j hj q hq
              rcases List.mem_cons.mp hj with h1 | h2
              · rw [h1]
                exact hpw'.1 q hq
              · exact hdisj j h2 q (List.mem_cons_of_mem _ hq)
          · rw [if_neg hfit]
            apply ih line used acc hpw'.2
              (fun j hj q hq => hdisj j hj q (List.mem_cons_of_mem _ hq)) hle
            rw [List.filter_cons] at hcnt
            by_cases h1 : syl w = 1
            · exfalso
              rw [h1] at hfit
              omega
            · have hcne : (decide (syl w = 1)) = false := by
                simp only [decide_eq_false_iff_not]
                exact h1
              rw [hcne, if_bool_false] at hcnt
              exact hcnt
    · rw [if_neg hlt]
      show acc = target
      omega

/-! ## Lemmas about the filler step and the attempts of packExact -/

theorem nodup_length_le {α : Type} [DecidableEq α] {l1 l2 : List α}
    (h : l1.Nodup) (hs : ∀ x ∈ l1, x ∈ l2) : l1.length ≤ l2.length := by
  calc l1.length = l1.toFinset.card := (List.toFinset_card_of_nodup h).symm
  _ ≤ l2.toFinset.card := Finset.card_le_card (by
      intro x hx
      rw [List.mem_toFinset] at hx ⊢
      exact hs x hx)
  _ ≤ l2.length := List.toFinset_card_le l2

theorem fillerStep_char (syl : String → Nat) (fillers : List String) (target : Nat)
    (line : List String) (acc t : Nat) :
    ((fillerStep syl fillers target line acc t).1 = line ∧
        (fillerStep syl fillers target line acc t).2.1 = acc) ∨
      (∃ w ∈ fillers, syl w = target - acc ∧
        (fillerStep syl fillers target line acc t).1 = line ++ [w] ∧
        (fillerStep syl fillers target line acc t).2.1 = target) ∨
      (∃ w ∈ fillers, syl w = 2 ∧ 2 ≤ target - acc ∧
        (fillerStep syl fillers target line acc t).1 = line ++ [w] ∧
        (fillerStep syl fillers target line acc t).2.1 = acc + 2) ∨
      (∃ w ∈ fillers, syl w = 1 ∧ target - acc < 2 ∧
        (fillerStep syl fillers target line acc t).1 = line ++ [w] ∧
        (fillerStep syl fillers target line acc t).2.1 = acc + 1) := by
  simp only [fillerStep]
  cases hex : (fillers.filter (fun w => decide (syl w = target - acc))).isEmpty with
  | false =>
    simp only [Bool.not_false, if_bool_true]
    have hne : fillers.filter (fun w => decide (syl w = target - acc)) ≠ [] := by
      simpa using hex
    set ex := fillers.filter (fun w => decide (syl w = target - acc)) with hexd
    have hmem := pick_fst_mem t ex (ex.headD "") hne
    rw [hexd] at hmem
    have hflt := List.mem_filter.mp hmem
    right
    left
    refine ⟨(pick t ex (ex.headD "")).1, hflt.1, of_decide_eq_true hflt.2, ?_, ?_⟩ <;> rfl
  | true =>
    simp only [Bool.not_true, Bool.false_eq_true, if_false]
    by_cases hn2 : 2 ≤ target - acc
    · rw [if_pos hn2]
      cases htw : (fillers.filter (fun w => decide (syl w = 2))).isEmpty with
      | false =>
        simp only [Bool.not_false, if_bool_true]
        have hne : fillers.filter (fun w => decide (syl w = 2)) ≠ [] := by
          simpa using htw
        set tw := fillers.filter (fun w => decide (syl w = 2)) with htwd
        have hmem := pick_fst_mem t tw (tw.headD "") hne
        rw [htwd] at hmem
        have hflt := List.mem_filter.mp hmem
        right
        right
        left
        refine ⟨(pick t tw (tw.headD "")).1, hflt.1, of_decide_eq_true hflt.2, hn2, ?_, ?_⟩ <;> rfl
      | true =>
        simp only [Bool.not_true, Bool.false_eq_true, if_false]
        left
        exact ⟨trivial, trivial⟩
    · rw [if_neg hn2]
      cases hon : (fillers.filter (fun w => decide (syl w = 1))).isEmpty with
      | false =>
        simp only [Bool.not_false, if_bool_true]
        have hne : fillers.filter (fun w => decide (syl w = 1)) ≠ [] := by
          simpa using hon
        set on1 := fillers.filter (fun w => decide (syl w = 1)) with hond
        have hmem := pick_fst_mem t on1 (on1.headD "") hne
        rw [hond] at hmem
        have hflt := List.mem_filter.mp hmem
        right
        right
        right
        refine ⟨(pick t on1 (on1.headD "")).1, hflt.1, of_decide_eq_true hflt.2, by omega, ?_, ?_⟩ <;>
          rfl
      | true =>
        simp only [Bool.not_true, Bool.false_eq_true, if_false]
        left
        exact ⟨trivial, trivial⟩

theorem fillerStep_sum {syl : String → Nat} {fillers : List String} {target : Nat}
    {line : List String} {acc t : Nat}
    (h1 : acc ≤ target) (h2 : acc = sumSyl syl line) :
    (fillerStep syl fillers target line acc t).2.1 =
      sumSyl syl (fillerStep syl fillers target line acc t).1 := by
  rcases fillerStep_char syl fillers target line acc t with
    ⟨hl, ha⟩ | ⟨w, hw, hs, hl, ha⟩ | ⟨w, hw, hs, hn, hl, ha⟩ | ⟨w, hw, hs, hn, hl, ha⟩ <;>
    rw [hl, ha]
  · exact h2
  · rw [sumSyl_append_single, ← h2, hs]
    omega
  · rw [sumSyl_append_single, ← h2, hs]
  · rw [sumSyl_append_single, ← h2, hs]

theorem fillerStep_mem {syl : String → Nat} {fillers : List String} {target : Nat}
    {line : List String} {acc t : Nat} :
    ∀ x ∈ (fillerStep syl fillers target line acc t).1, x ∈ line ∨ x ∈ fillers := by
  intro x hx
  rcases fillerStep_char syl fillers target line acc t with
    ⟨hl, -⟩ | ⟨w, hw, -, hl, -⟩ | ⟨w, hw, -, -, hl, -⟩ | ⟨w, hw, -, -, hl, -⟩ <;>
    rw [hl] at hx
  · exact Or.inl hx
  all_goals
    rcases List.mem_append.mp hx with h1 | h2
  · exact Or.inl h1
  · have : x = w := by simpa using h2
    rw [this]; exact Or.inr hw
  · exact Or.inl h1
  · have : x = w := by simpa using h2
    rw [this]; exact Or.inr hw
  · exact Or.inl h1
  · have : x = w := by simpa using h2
    rw [this]; exact Or.inr hw

theorem fillerStep_pos {syl : String → Nat} {fillers : List String} {target : Nat}
    {line : List String} {acc t : Nat}
    (hlt : acc < target) (hline : ∀ x ∈ line, 0 < syl x) :
    ∀ x ∈ (fillerStep syl fillers target line acc t).1, 0 < syl x := by
  intro x hx
  rcases fillerStep_char syl fillers target line acc t with
    ⟨hl, -⟩ | ⟨w, hw, hs, hl, -⟩ | ⟨w, hw, hs, -, hl, -⟩ | ⟨w, hw, hs, -, hl, -⟩ <;>
    rw [hl] at hx
  · exact hline x hx
  all_goals
    rcases List.mem_append.mp hx with h1 | h2
  · exact hline x h1
  · have : x = w := by simpa using h2
    rw [this, hs]; omega
  · exact hline x h1
  · have : x = w := by simpa using h2
    rw [this, hs]; omega
  · exact hline x h1
  · have : x = w := by simpa using h2
    rw [this, hs]; omega

theorem fillerStep_len {syl : String → Nat} {fillers : List String} {target : Nat}
    {line : List String} {acc t : Nat} :
    (fillerStep syl fillers target line acc t).1.length ≤ line.length + 1 := by
  rcases fillerStep_char syl fillers target line acc t with
    ⟨hl, -⟩ | ⟨w, -, -, hl, -⟩ | ⟨w, -, -, -, hl, -⟩ | ⟨w, -, -, -, hl, -⟩ <;>
    rw [hl] <;> simp

theorem fillerStep_acc_le {syl : String → Nat} {fillers : List String} {target : Nat}
    {line : List String} {acc t : Nat} (hlt : acc < target) :
    (fillerStep syl fillers target line acc t).2.1 ≤ target := by
  rcases fillerStep_char syl fillers target line acc t with
    ⟨-, ha⟩ | ⟨w, -, -, -, ha⟩ | ⟨w, -, -, hn, -, ha⟩ | ⟨w, -, -, hn, -, ha⟩ <;>
    rw [ha] <;> omega

theorem exactAttempt_some_props {syl : String → Nat} {fillers : List String} {target : Nat}
    {rotated : List String} {t : Nat} {ws : List String}
    (h : (exactAttempt syl fillers target rotated t).1 = some ws) :
    sumSyl syl ws = target ∧
      (∀ x ∈ ws, x ∈ rotated ∨ x ∈ fillers) ∧
      (∀ x ∈ ws, 0 < syl x) ∧
      ws.length ≤ rotated.length + 2 := by
  simp only [exactAttempt] at h
  set lst := withIdx 0 rotated with hlst
  set p1 := scanPass syl target lst [] [] 0 with hp1
  have hp1sum : p1.2.2 = sumSyl syl p1.1 := scanPass_sum syl target lst [] [] 0 rfl
  have hp1mem : ∀ x ∈ p1.1, x ∈ rotated := by
    intro x hx
    rcases scanPass_mem syl target lst [] [] 0 x hx with h1 | h2
    · cases h1
    · rw [hlst, withIdx_map_snd] at h2
      exact h2
  have hp1pos : ∀ x ∈ p1.1, 0 < syl x :=
    scanPass_pos syl target lst [] [] 0 (by intro x hx; cases hx)
  have hp1le : p1.2.2 ≤ target := scanPass_acc_le syl target lst [] [] 0 (Nat.zero_le _)
  have hp1lock : p1.1.length = p1.2.1.length := by
    have := scanPass_lockstep syl target lst [] [] 0
    simpa using this
  have hp1nd : p1.2.1.Nodup := scanPass_used_nodup syl target lst [] [] 0 List.nodup_nil
  have hp1us : ∀ j ∈ p1.2.1, j ∈ lst.map Prod.fst := by
    intro j hj
    rcases scanPass_used_sub syl target lst [] [] 0 j hj with h1 | h2
    · cases h1
    · exact h2
  have hlstlen : (lst.map Prod.fst).length = rotated.length := by
    rw [List.length_map, hlst, withIdx_length]
  have hu1len : p1.2.1.length ≤ rotated.length := by
    have := nodup_length_le hp1nd hp1us
    omega
  by_cases hb1 : p1.2.2 = target
  · rw [if_pos hb1] at h
    have hws : p1.1 = ws := by simpa using h
    rw [← hws]
    exact ⟨by rw [← hp1sum, hb1], fun x hx => Or.inl (hp1mem x hx), hp1pos, by omega⟩
  · rw [if_neg hb1] at h
    have hlt1 : p1.2.2 < target := by omega
    set f1 := fillerStep syl fillers target p1.1 p1.2.2 t with hf1
    have hf1sum : f1.2.1 = sumSyl syl f1.1 := fillerStep_sum hp1le hp1sum
    have hf1mem : ∀ x ∈ f1.1, x ∈ rotated ∨ x ∈ fillers := by
      intro x hx
      rcases fillerStep_mem x hx with h1 | h2
      · exact Or.inl (hp1mem x h1)
      · exact Or.inr h2
    have hf1pos : ∀ x ∈ f1.1, 0 < syl x := fillerStep_pos hlt1 hp1pos
    have hf1len : f1.1.length ≤ p1.1.length + 1 := fillerStep_len
    have hf1le : f1.2.1 ≤ target := fillerStep_acc_le hlt1
    by_cases hb2 : f1.2.1 = target
    · rw [if_pos hb2] at h
      have hws : f1.1 = ws := by simpa using h
      rw [← hws]
      exact ⟨by rw [← hf1sum, hb2], hf1mem, hf1pos, by omega⟩
    · rw [if_neg hb2] at h
      set p2 := scanPass syl target lst f1.1 p1.2.1 f1.2.1 with hp2
      have hp2sum : p2.2.2 = sumSyl syl p2.1 :=
        scanPass_sum syl target lst f1.1 p1.2.1 f1.2.1 hf1sum
      have hp2mem : ∀ x ∈ p2.1, x ∈ rotated ∨ x ∈ fillers := by
        intro x hx
        rcases scanPass_mem syl target lst f1.1 p1.2.1 f1.2.1 x hx with h1 | h2
        · exact hf1mem x h1
        · rw [hlst, withIdx_map_snd] at h2
          exact Or.inl h2
      have hp2pos : ∀ x ∈ p2.1, 0 < syl x :=
        scanPass_pos syl target lst f1.1 p1.2.1 f1.2.1 hf1pos
      have hp2le : p2.2.2 ≤ target := scanPass_acc_le syl target lst f1.1 p1.2.1 f1.2.1 hf1le
      have hp2lock : p2.1.length + p1.2.1.length = f1.1.length + p2.2.1.length :=
        scanPass_lockstep syl target lst f1.1 p1.2.1 f1.2.1
      have hp2nd : p2.2.1.Nodup := scanPass_used_nodup syl target lst f1.1 p1.2.1 f1.2.1 hp1nd
      have hp2us : ∀ j ∈ p2.2.1, j ∈ lst.map Prod.fst := by
        intro j hj
        rcases scanPass_used_sub syl target lst f1.1 p1.2.1 f1.2.1 j hj with h1 | h2
        · exact hp1us j h1
        · exact h2
      have hu2len : p2.2.1.length ≤ rotated.length := by
        have := nodup_length_le hp2nd hp2us
        omega
      by_cases hb3 : p2.2.2 = target
      · rw [if_pos hb3] at h
        have hws : p2.1 = ws := by simpa using h
        rw [← hws]
        exact ⟨by rw [← hp2sum, hb3], hp2mem, hp2pos, by omega⟩
      · rw [if_neg hb3] at h
        have hlt2 : p2.2.2 < target := by omega
        set f2 := fillerStep syl fillers target p2.1 p2.2.2 f1.2.2 with hf2
        have hf2sum : f2.2.1 = sumSyl syl f2.1 := fillerStep_sum hp2le hp2sum
        have hf2mem : ∀ x ∈ f2.1, x ∈ rotated ∨ x ∈ fillers := by
          intro x hx
          rcases fillerStep_mem x hx with h1 | h2
          · exact hp2mem x h1
          · exact Or.inr h2
        have hf2pos : ∀ x ∈ f2.1, 0 < syl x := fillerStep_pos hlt2 hp2pos
        have hf2len : f2.1.length ≤ p2.1.length + 1 := fillerStep_len
        by_cases hb4 : f2.2.1 = target
        · rw [if_pos hb4] at h
          have hws : f2.1 = ws := by simpa using h
          rw [← hws]
          exact ⟨by rw [← hf2sum, hb4], hf2mem, hf2pos, by omega⟩
        · rw [if_neg hb4] at h
          cases h

theorem exactAttempt_reach (syl : String → Nat) (fillers : List String) (target : Nat)
    (rotated : List String) (t : Nat)
    (hcnt : target ≤ ((withIdx 0 rotated).filter (fun p => decide (syl p.2 = 1))).length) :
    ∃ ws, (exactAttempt syl fillers target rotated t).1 = some ws := by
  have hreach := scanPass_reach syl target (withIdx 0 rotated) [] [] 0
    (withIdx_pairwise 0 rotated) (by intro j hj q hq; cases hj) (Nat.zero_le _) (by omega)
  refine ⟨(scanPass syl target (withIdx 0 rotated) [] [] 0).1, ?_⟩
  simp only [exactAttempt]
  rw [if_pos hreach]

theorem withIdx_count1 (syl : String → Nat) :
    ∀ (k : Nat) (l : List String),
      ((withIdx k l).filter (fun p => decide (syl p.2 = 1))).length = oneCount syl l := by
  intro k l
  induction l generalizing k with
  | nil => rfl
  | cons a tl ih =>
    simp only [withIdx, oneCount, List.filter_cons]
    by_cases h1 : syl a = 1
    · have hc1 : (decide (syl ((k, a) : Nat × String).2 = 1)) = true := by
        simp only [decide_eq_true_eq]
        exact h1
      rw [hc1, if_bool_true, if_bool_true]
      simp only [List.length_cons]
      have hk := ih (k + 1)
      simp only [oneCount] at hk
      omega
    · have hc1 : (decide (syl ((k, a) : Nat × String).2 = 1)) = false := by
        simp only [decide_eq_false_iff_not]
        exact h1
      rw [hc1, if_bool_false, if_bool_false]
      have hk := ih (k + 1)
      simp only [oneCount] at hk
      omega

theorem oneCount_append (syl : String → Nat) (a b : List String) :
    oneCount syl (a ++ b) = oneCount syl a + oneCount syl b := by
  simp [oneCount, List.filter_append]

theorem oneCount_rotate (syl : String → Nat) (pool : List String) (s : Nat) :
    oneCount syl (pool.drop s ++ pool.take s) = oneCount syl pool := by
  rw [oneCount_append]
  conv_rhs => rw [← List.take_append_drop s pool]
  rw [oneCount_append]
  omega

theorem exactAttempts_some_props (syl : String → Nat) (fillers pool : List String)
    (target : Nat) :
    ∀ (n attempt t : Nat) (ws : List String),
      (exactAttempts syl fillers pool target n attempt t).1 = some ws →
      sumSyl syl ws = target ∧
        (∀ x ∈ ws, x ∈ pool ∨ x ∈ fillers) ∧
        (∀ x ∈ ws, 0 < syl x) ∧
        ws.length ≤ pool.length + 2 := by
  intro n
  induction n with
  | zero =>
    intro attempt t ws h
    simp only [exactAttempts] at h
    cases h
  | succ n ih =>
    intro attempt t ws h
    simp only [exactAttempts] at h
    set rot := if pool.isEmpty then []
      else pool.drop (attempt * 3 + (mbNext t).1 * 3 / 4294967296) ++
        pool.take (attempt * 3 + (mbNext t).1 * 3 / 4294967296) with hrot
    have hrotmem : ∀ x ∈ rot, x ∈ pool := by
      intro x hx
      rw [hrot] at hx
      by_cases hpe : pool.isEmpty
      · rw [if_pos hpe] at hx
        cases hx
      · rw [if_neg hpe] at hx
        rcases List.mem_append.mp hx with h1 | h2
        · exact List.mem_of_mem_drop h1
        · exact List.mem_of_mem_take h2
    have hrotlen : rot.length ≤ pool.length := by
      rw [hrot]
      by_cases hpe : pool.isEmpty
      · rw [if_pos hpe]
        simp
      · rw [if_neg hpe]
        simp only [List.length_append, List.length_drop, List.length_take]
        omega
    cases hres : (exactAttempt syl fillers target rot (mbNext t).2).1 with
    | some line =>
      rw [hres] at h
      have hws : line = ws := by simpa using h
      obtain ⟨hsum, hmem, hpos, hlen⟩ := exactAttempt_some_props hres
      rw [← hws]
      refine ⟨hsum, ?_, hpos, by omega⟩
      intro x hx
      rcases hmem x hx with h1 | h2
      · exact Or.inl (hrotmem x h1)
      · exact Or.inr h2
    | none =>
      rw [hres] at h
      exact ih (attempt + 1) _ ws h

theorem exactAttempts_reach (syl : String → Nat) (fillers pool : List String)
    (target : Nat) (hcnt : target ≤ oneCount syl pool) :
    ∀ (n attempt t : Nat),
      ∃ ws, (exactAttempts syl fillers pool target (n + 1) attempt t).1 = some ws := by
  intro n attempt t
  simp only [exactAttempts]
  set rot := if pool.isEmpty then []
    else pool.drop (attempt * 3 + (mbNext t).1 * 3 / 4294967296) ++
      pool.take (attempt * 3 + (mbNext t).1 * 3 / 4294967296) with hrot
  have hcnt2 : target ≤ oneCount syl rot := by
    rw [hrot]
    by_cases hpe : pool.isEmpty
    · rw [if_pos hpe]
      have : pool = [] := by simpa using hpe
      rw [this] at hcnt
      simpa using hcnt
    · rw [if_neg hpe, oneCount_rotate]
      exact hcnt
  obtain ⟨ws, hws⟩ := exactAttempt_reach syl fillers target rot (mbNext t).2
    (by rw [withIdx_count1]; exact hcnt2)
  refine ⟨ws, ?_⟩
  rw [hws]

theorem packExact_some_props {syl : String → Nat} {pool : List String} {target : Nat}
    {topic : TopicKey} {t : Nat} {ws : List String}
    (h : (packExact syl pool target topic t).1 = some ws) :
    sumSyl syl ws = target ∧
      (∀ x ∈ ws, x ∈ pool ∨
        x ∈ (TOPIC_FILLERS topic).f1 ++ (TOPIC_FILLERS topic).f2) ∧
      (∀ x ∈ ws, 0 < syl x) ∧
      ws.length ≤ pool.length + 2 := by
  unfold packExact at h
  exact exactAttempts_some_props syl _ pool target 6 0 t ws h

theorem packExact_reach {syl : String → Nat} {pool : List String} {target : Nat}
    {topic : TopicKey} {t : Nat} (hcnt : target ≤ oneCount syl pool) :
    ∃ ws, (packExact syl pool target topic t).1 = some ws := by
  unfold packExact
  exact exactAttempts_reach syl _ pool target hcnt 5 0 t

/-! ## Lemmas about packLine -/

theorem packLine_sum {syl : String → Nat} {pool : List String} {target : Nat}
    {topic : TopicKey} {minWords t : Nat} {ws : List String}
    (h : (packLine syl pool target topic minWords t).1 = some ws) :
    sumSyl syl ws = target := by
  simp only [packLine] at h
  cases hnat : (packNatural syl pool target topic t minWords).1 with
  | some l =>
    rw [hnat] at h
    have : l = ws := by simpa using h
    rw [← this]
    exact (packNatural_some_props hnat).1
  | none =>
    rw [hnat] at h
    exact (packExact_some_props h).1

theorem packLine_mem {syl : String → Nat} {pool : List String} {target : Nat}
    {topic : TopicKey} {minWords t : Nat} {ws : List String}
    (h : (packLine syl pool target topic minWords t).1 = some ws) :
    ∀ x ∈ ws, x ∈ pool ∨ x ∈ GLUE_WORDS ∨
      x ∈ (TOPIC_FILLERS topic).f1 ++ (TOPIC_FILLERS topic).f2 := by
  simp only [packLine] at h
  cases hnat : (packNatural syl pool target topic t minWords).1 with
  | some l =>
    rw [hnat] at h
    have he : l = ws := by simpa using h
    rw [← he]
    intro x hx
    rcases (packNatural_some_props hnat).2.1 x hx with h1 | h2
    · exact Or.inl h1
    · exact Or.inr (Or.inl h2)
  | none =>
    rw [hnat] at h
    intro x hx
    rcases (packExact_some_props h).2.1 x hx with h1 | h2
    · exact Or.inl h1
    · exact Or.inr (Or.inr h2)

theorem packLine_some_of_count {syl : String → Nat} {pool : List String} {target : Nat}
    {topic : TopicKey} {minWords t : Nat} (hcnt : target ≤ oneCount syl pool) :
    ∃ ws, (packLine syl pool target topic minWords t).1 = some ws := by
  simp only [packLine]
  cases hnat : (packNatural syl pool target topic t minWords).1 with
  | some l => exact ⟨l, rfl⟩
  | none => exact packExact_reach hcnt

/-! ## Lemmas about lower-casing, dedup and the pool builder -/

theorem char_toNat_ofNat {n : Nat} (h : n.isValidChar) : (Char.ofNat n).toNat = n := by
  unfold Char.ofNat
  rw [dif_pos h]
  rfl

theorem lowerChar_idem (c : Char) : lowerChar (lowerChar c) = lowerChar c := by
  unfold lowerChar
  by_cases h : 65 ≤ c.toNat ∧ c.toNat ≤ 90
  · rw [if_pos h]
    have hval : (c.toNat + 32).isValidChar := Or.inl (by omega)
    have htn := char_toNat_ofNat hval
    rw [if_neg (by rw [htn]; omega)]
  · rw [if_neg h, if_neg h]

theorem map_lowerChar_idem : ∀ cs : List Char,
    (cs.map lowerChar).map lowerChar = cs.map lowerChar
  | [] => rfl
  | c :: cs => by simp [map_lowerChar_idem cs, lowerChar_idem c]

theorem lowerStr_idem (s : String) : lowerStr (lowerStr s) = lowerStr s :=
  congrArg String.mk (map_lowerChar_idem s.data)

theorem imageryWords_lower (ext : Ext) (text : String) :
    ∀ w ∈ imageryWords ext text, lowerStr w = w := by
  intro w hw
  unfold imageryWords at hw
  rw [List.mem_filterMap] at hw
  obtain ⟨p, hp, hsome⟩ := hw
  simp only [] at hsome
  split at hsome
  · have : lowerStr p.2 = w := by simpa using hsome
    rw [← this, lowerStr_idem]
  · cases hsome

theorem dedupCI_subset : ∀ (seen l : List String), ∀ x ∈ dedupCI seen l, x ∈ l := by
  intro seen l
  induction l generalizing seen with
  | nil => intro x hx; cases hx
  | cons a tl ih =>
    intro x hx
    simp only [dedupCI] at hx
    by_cases hc : seen.contains (lowerStr a)
    · rw [if_pos hc] at hx
      exact List.mem_cons_of_mem _ (ih seen x hx)
    · rw [if_neg hc] at hx
      rcases List.mem_cons.mp hx with h1 | h2
      · rw [h1]; exact List.mem_cons_self _ _
      · exact List.mem_cons_of_mem _ (ih _ x h2)

theorem dedupCI_key_mem : ∀ (seen l : List String) (w : String), w ∈ l →
    seen.contains (lowerStr w) = false →
    ∃ e ∈ dedupCI seen l, lowerStr e = lowerStr w := by
  intro seen l
  induction l generalizing seen with
  | nil => intro w hw; cases hw
  | cons a tl ih =>
    intro w hw hns
    simp only [dedupCI]
    by_cases hc : (seen.contains (lowerStr a)) = true
    · rw [if_pos hc]
      rcases List.mem_cons.mp hw with h1 | h2
      · exfalso
        rw [h1] at hns
        rw [hns] at hc
        cases hc
      · exact ih seen w h2 hns
    · rw [if_neg hc]
      rcases List.mem_cons.mp hw with h1 | h2
      · exact ⟨a, List.mem_cons_self _ _, by rw [h1]⟩
      · by_cases heq : lowerStr w = lowerStr a
        · exact ⟨a, List.mem_cons_self _ _, heq.symm⟩
        · have hnsm : lowerStr w ∉ seen := by simpa using hns
          have hnm : lowerStr w ∉ lowerStr a :: seen := by
            intro hmm
            rcases List.mem_cons.mp hmm with h3 | h4
            · exact heq h3
            · exact hnsm h4
          have hns2 : ((lowerStr a :: seen).contains (lowerStr w)) = false := by
            rw [Bool.eq_false_iff]
            intro hcm
            exact hnm (by simpa using hcm)
          obtain ⟨e, he, hle⟩ := ih (lowerStr a :: seen) w h2 hns2
          exact ⟨e, List.mem_cons_of_mem _ he, hle⟩

theorem dedupCI_ne_nil (l : List String) (h : l ≠ []) : dedupCI [] l ≠ [] := by
  cases l with
  | nil => exact absurd rfl h
  | cons a tl =>
    simp only [dedupCI]
    rw [if_neg (by simp)]
    simp

theorem nouns_lower : ∀ tp : TopicKey, ∀ x ∈ (TOPIC_FILLERS tp).nouns, lowerStr x = x := by
  intro tp
  cases tp <;> decide

theorem buildPool_topic (ext : Ext) (text : String) (t : Nat) :
    (buildPool ext text t).2.1 = scoreTopic (rawTokens text) := rfl

theorem buildPool_mem (ext : Ext) (text : String) (t : Nat) :
    ∀ w ∈ (buildPool ext text t).1,
      (∃ ph ∈ (TOPIC_FILLERS (scoreTopic (rawTokens text))).kigo,
          w ∈ (splitChar ' ' ph.data).map String.mk) ∨
      (w ∈ imageryWords ext text ∧
        ((TOPIC_FILLERS (scoreTopic (rawTokens text))).banned.map lowerStr).contains w =
          false) ∨
      w ∈ (TOPIC_FILLERS (scoreTopic (rawTokens text))).nouns := by
  intro w hw
  simp only [buildPool] at hw
  rcases List.mem_append.mp hw with hk | hu
  · by_cases hke : ((TOPIC_FILLERS (scoreTopic (rawTokens text))).kigo).isEmpty = true
    · rw [if_pos hke] at hk
      cases hk
    · rw [if_neg hke] at hk
      by_cases hlt : lt05 (mbNext t).1 = true
      · rw [if_pos hlt] at hk
        have hkne : (TOPIC_FILLERS (scoreTopic (rawTokens text))).kigo ≠ [] := by
          simpa using hke
        refine Or.inl ⟨(pick (mbNext t).2 (TOPIC_FILLERS (scoreTopic (rawTokens text))).kigo
          ((TOPIC_FILLERS (scoreTopic (rawTokens text))).kigo.headD "")).1, ?_, ?_⟩
        · exact pick_fst_mem _ _ _ hkne
        · exact hk
      · rw [if_neg hlt] at hk
        cases hk
  · have hsrc := dedupCI_subset _ _ w hu
    rcases List.mem_append.mp hsrc with hi | hn
    · have hmf := List.mem_filter.mp hi
      exact Or.inr (Or.inl ⟨hmf.1, by simpa using hmf.2⟩)
    · exact Or.inr (Or.inr hn)

theorem buildPool_noun_mem (ext : Ext) (text : String) (t : Nat) (n : String)
    (hn : n ∈ (TOPIC_FILLERS (scoreTopic (rawTokens text))).nouns)
    (hlow : lowerStr n = n) :
    n ∈ (buildPool ext text t).1 := by
  simp only [buildPool]
  apply List.mem_append.mpr
  right
  have hmem : n ∈ (imageryWords ext text).filter
      (fun w => !((TOPIC_FILLERS (scoreTopic (rawTokens text))).banned.map
        lowerStr).contains w) ++ (TOPIC_FILLERS (scoreTopic (rawTokens text))).nouns :=
    List.mem_append.mpr (Or.inr hn)
  obtain ⟨e, he, hle⟩ := dedupCI_key_mem [] _ n hmem rfl
  have hesrc := dedupCI_subset _ _ e he
  have hee : lowerStr e = e := by
    rcases List.mem_append.mp hesrc with h1 | h2
    · exact imageryWords_lower ext text e (List.mem_filter.mp h1).1
    · exact nouns_lower _ e h2
  have hen : e = n := by rw [← hee, hle, hlow]
  rw [← hen]
  exact he

theorem buildPool_ne_nil (ext : Ext) (text : String) (t : Nat) :
    (buildPool ext text t).1 ≠ [] := by
  simp only [buildPool]
  intro hcon
  rcases List.append_eq_nil.mp hcon with ⟨-, h2⟩
  have hnene : (TOPIC_FILLERS (scoreTopic (rawTokens text))).nouns ≠ [] := by
    cases scoreTopic (rawTokens text) <;> decide
  have hne : (imageryWords ext text).filter
      (fun w => !((TOPIC_FILLERS (scoreTopic (rawTokens text))).banned.map
        lowerStr).contains w) ++ (TOPIC_FILLERS (scoreTopic (rawTokens text))).nouns ≠ [] := by
    intro hc
    rcases List.append_eq_nil.mp hc with ⟨-, hnn⟩
    exact hnene hnn
  exact dedupCI_ne_nil _ hne h2

/-! ## String splitting and joining lemmas -/

theorem wsTokensGo_cons_ws (c : Char) (hc : c.isWhitespace = true) (acc cs : List Char) :
    wsTokensGo acc (c :: cs) =
      if acc.isEmpty then wsTokensGo [] cs else acc.reverse :: wsTokensGo [] cs := by
  simp only [wsTokensGo, hc, if_bool_true, if_true]

theorem wsTokensGo_cons_nws (c : Char) (hc : c.isWhitespace = false) (acc cs : List Char) :
    wsTokensGo acc (c :: cs) = wsTokensGo (c :: acc) cs := by
  simp only [wsTokensGo, hc, Bool.false_eq_true, if_false]

theorem wsTokensGo_run : ∀ (cs : List Char), (∀ c ∈ cs, c.isWhitespace = false) →
    ∀ (rest acc : List Char),
      wsTokensGo acc (cs ++ rest) = wsTokensGo (cs.reverse ++ acc) rest := by
  intro cs
  induction cs with
  | nil =>
    intro _ rest acc
    simp
  | cons c cs ih =>
    intro h rest acc
    have hc := h c (List.mem_cons_self _ _)
    rw [List.cons_append, wsTokensGo_cons_nws c hc]
    rw [ih (fun x hx => h x (List.mem_cons_of_mem _ hx)) rest (c :: acc)]
    simp [List.append_assoc]

theorem wsTokens_joinParts : ∀ (ds : List (List Char)),
    (∀ d ∈ ds, d ≠ [] ∧ ∀ c ∈ d, c.isWhitespace = false) →
    wsTokens (joinParts ' ' ds) = ds := by
  intro ds
  induction ds with
  | nil => intro _; rfl
  | cons d rest ih =>
    intro h
    have hd := h d (List.mem_cons_self _ _)
    have hdne : d.reverse.isEmpty = false := by
      cases d with
      | nil => exact absurd rfl hd.1
      | cons x xs => simp
    cases rest with
    | nil =>
      show wsTokensGo [] (joinParts ' ' [d]) = [d]
      have hj : joinParts ' ' [d] = d := rfl
      rw [hj]
      have hrun := wsTokensGo_run d hd.2 [] []
      rw [List.append_nil, List.append_nil] at hrun
      rw [hrun]
      simp only [wsTokensGo, hdne, Bool.false_eq_true, if_false]
      simp
    | cons e rest2 =>
      show wsTokensGo [] (joinParts ' ' (d :: e :: rest2)) = d :: e :: rest2
      have hj : joinParts ' ' (d :: e :: rest2) = d ++ ' ' :: joinParts ' ' (e :: rest2) := rfl
      rw [hj]
      rw [wsTokensGo_run d hd.2 (' ' :: joinParts ' ' (e :: rest2)) []]
      rw [List.append_nil]
      rw [wsTokensGo_cons_ws ' ' (by decide)]
      rw [hdne]
      simp only [Bool.false_eq_true, if_false]
      have hih := ih (fun x hx => h x (List.mem_cons_of_mem _ hx))
      show d.reverse.reverse :: wsTokensGo [] (joinParts ' ' (e :: rest2)) = d :: e :: rest2
      rw [show wsTokensGo [] (joinParts ' ' (e :: rest2)) =
        wsTokens (joinParts ' ' (e :: rest2)) from rfl]
      rw [hih, List.reverse_reverse]

theorem wsTokensGo_append_ws (c : Char) (hc : c.isWhitespace = true) :
    ∀ (xs acc ys : List Char),
      wsTokensGo acc (xs ++ c :: ys) = wsTokensGo acc xs ++ wsTokensGo [] ys := by
  intro xs
  induction xs with
  | nil =>
    intro acc ys
    rw [List.nil_append, wsTokensGo_cons_ws c hc]
    have hbase : wsTokensGo acc ([] : List Char) =
        if acc.isEmpty then [] else [acc.reverse] := rfl
    rw [hbase]
    by_cases ha : acc.isEmpty = true
    · rw [if_pos ha, if_pos ha]
      rfl
    · rw [if_neg ha, if_neg ha]
      rfl
  | cons x xs ih =>
    intro acc ys
    rw [List.cons_append]
    by_cases hx : x.isWhitespace = true
    · rw [wsTokensGo_cons_ws x hx, wsTokensGo_cons_ws x hx]
      by_cases ha : acc.isEmpty = true
      · rw [if_pos ha, if_pos ha]
        exact ih [] ys
      · rw [if_neg ha, if_neg ha]
        rw [ih [] ys]
        rfl
    · have hx2 : x.isWhitespace = false := by simpa using hx
      rw [wsTokensGo_cons_nws x hx2, wsTokensGo_cons_nws x hx2]
      exact ih (x :: acc) ys

theorem wsTokens_append_ws (c : Char) (hc : c.isWhitespace = true) (xs ys : List Char) :
    wsTokens (xs ++ c :: ys) = wsTokens xs ++ wsTokens ys :=
  wsTokensGo_append_ws c hc xs [] ys

theorem splitCharGo_cons_sep (sep : Char) (acc cs : List Char) :
    splitCharGo sep acc (sep :: cs) = acc.reverse :: splitCharGo sep [] cs := by
  simp only [splitCharGo, if_true]

theorem splitCharGo_cons_ne (sep x : Char) (hx : ¬x = sep) (acc cs : List Char) :
    splitCharGo sep acc (x :: cs) = splitCharGo sep (x :: acc) cs := by
  simp only [splitCharGo]
  rw [if_neg hx]

theorem splitCharGo_not_mem (sep : Char) : ∀ (xs acc : List Char), sep ∉ xs →
    splitCharGo sep acc xs = [acc.reverse ++ xs] := by
  intro xs
  induction xs with
  | nil => intro acc _; simp [splitCharGo]
  | cons x xs ih =>
    intro acc h
    have hx : ¬x = sep := by
      intro hcon
      exact h (by rw [hcon]; exact List.mem_cons_self _ _)
    rw [splitCharGo_cons_ne sep x hx]
    rw [ih (x :: acc) (fun hm => h (List.mem_cons_of_mem _ hm))]
    simp

theorem splitCharGo_append (sep : Char) : ∀ (xs acc ys : List Char), sep ∉ xs →
    splitCharGo sep acc (xs ++ sep :: ys) =
      (acc.reverse ++ xs) :: splitCharGo sep [] ys := by
  intro xs
  induction xs with
  | nil =>
    intro acc ys _
    rw [List.nil_append, splitCharGo_cons_sep]
    simp
  | cons x xs ih =>
    intro acc ys h
    have hx : ¬x = sep := by
      intro hcon
      exact h (by rw [hcon]; exact List.mem_cons_self _ _)
    rw [List.cons_append, splitCharGo_cons_ne sep x hx]
    rw [ih (x :: acc) ys (fun hm => h (List.mem_cons_of_mem _ hm))]
    simp

theorem joinParts_chars (sep : Char) : ∀ (ds : List (List Char)) (c : Char),
    c ∈ joinParts sep ds → (∃ d ∈ ds, c ∈ d) ∨ c = sep := by
  intro ds
  induction ds with
  | nil => intro c hc; cases hc
  | cons d rest ih =>
    intro c hc
    cases rest with
    | nil =>
      exact Or.inl ⟨d, List.mem_cons_self _ _, hc⟩
    | cons e rest2 =>
      have hj : joinParts sep (d :: e :: rest2) = d ++ sep :: joinParts sep (e :: rest2) := rfl
      rw [hj] at hc
      rcases List.mem_append.mp hc with h1 | h2
      · exact Or.inl ⟨d, List.mem_cons_self _ _, h1⟩
      · rcases List.mem_cons.mp h2 with h3 | h4
        · exact Or.inr h3
        · rcases ih c h4 with ⟨d2, hd2, hcd2⟩ | h5
          · exact Or.inl ⟨d2, List.mem_cons_of_mem _ hd2, hcd2⟩
          · exact Or.inr h5

theorem mk_data (s : String) : String.mk s.data = s := rfl

theorem wordOK_props {w : String} (h : wordOK w = true) :
    w.data ≠ [] ∧ ∀ c ∈ w.data, c.isWhitespace = false := by
  unfold wordOK at h
  simp only [Bool.and_eq_true] at h
  constructor
  · have := h.1
    simpa using this
  · intro c hc
    have := h.2
    rw [List.all_eq_true] at this
    have := this c hc
    simpa using this

theorem countLine_joinSep (syl : String → Nat) (ws : List String)
    (h : ∀ w ∈ ws, wordOK w = true) :
    countLine syl (joinSep ' ' ws) = sumSyl syl ws := by
  unfold countLine joinSep
  rw [show (String.mk (joinParts ' ' (ws.map String.data))).data =
    joinParts ' ' (ws.map String.data) from rfl]
  rw [wsTokens_joinParts (ws.map String.data) ?side]
  case side =>
    intro d hd
    rw [List.mem_map] at hd
    obtain ⟨w, hw, hdw⟩ := hd
    have := wordOK_props (h w hw)
    rw [← hdw]
    exact this
  rw [List.map_map]
  unfold sumSyl
  congr 1

theorem strict_haiku_words (l1 l2 l3 : List String)
    (h1 : ∀ w ∈ l1, wordOK w = true) (h2 : ∀ w ∈ l2, wordOK w = true)
    (h3 : ∀ w ∈ l3, wordOK w = true) :
    (wsTokens (joinSep '\n' [joinSep ' ' l1, joinSep ' ' l2, joinSep ' ' l3]).data).map
        String.mk = l1 ++ l2 ++ l3 := by
  have hline : ∀ l : List String, (∀ w ∈ l, wordOK w = true) →
      wsTokens (joinParts ' ' (l.map String.data)) = l.map String.data := by
    intro l hl
    apply wsTokens_joinParts
    intro d hd
    rw [List.mem_map] at hd
    obtain ⟨w, hw, hdw⟩ := hd
    rw [← hdw]
    exact wordOK_props (hl w hw)
  have hexp : (joinSep '\n' [joinSep ' ' l1, joinSep ' ' l2, joinSep ' ' l3]).data =
      joinParts ' ' (l1.map String.data) ++ '\n' ::
        (joinParts ' ' (l2.map String.data) ++ '\n' :: joinParts ' ' (l3.map String.data)) :=
    rfl
  rw [hexp]
  rw [wsTokens_append_ws '\n' (by decide), wsTokens_append_ws '\n' (by decide)]
  rw [hline l1 h1, hline l2 h2, hline l3 h3]
  have hid : ∀ l : List String, (l.map String.data).map String.mk = l := by
    intro l
    rw [List.map_map]
    have hcongr : ∀ w ∈ l, (String.mk ∘ String.data) w = id w := by
      intro w _
      show String.mk w.data = w
      rw [mk_data]
    rw [List.map_congr_left hcongr]
    simp
  rw [List.map_append, List.map_append, hid l1, hid l2, hid l3, List.append_assoc]

theorem nl_notin_joined (l : List String) (hl : ∀ w ∈ l, wordOK w = true) :
    '\n' ∉ (joinSep ' ' l).data := by
  intro hmem
  rcases joinParts_chars ' ' (l.map String.data) '\n' hmem with ⟨d, hd, hcd⟩ | hsp
  · rw [List.mem_map] at hd
    obtain ⟨w, hw, hdw⟩ := hd
    have := (wordOK_props (hl w hw)).2 '\n' (by rw [hdw]; exact hcd)
    exact absurd this (by decide)
  · exact absurd hsp (by decide)

theorem count575_joined (syl : String → Nat) (l1 l2 l3 : List String)
    (h1 : ∀ w ∈ l1, wordOK w = true) (h2 : ∀ w ∈ l2, wordOK w = true)
    (h3 : ∀ w ∈ l3, wordOK w = true) :
    count575 syl (joinSep '\n' [joinSep ' ' l1, joinSep ' ' l2, joinSep ' ' l3]) =
      [sumSyl syl l1, sumSyl syl l2, sumSyl syl l3] := by
  unfold count575
  have hexp : (joinSep '\n' [joinSep ' ' l1, joinSep ' ' l2, joinSep ' ' l3]).data =
      (joinSep ' ' l1).data ++ '\n' ::
        ((joinSep ' ' l2).data ++ '\n' :: (joinSep ' ' l3).data) := rfl
  rw [hexp]
  have hsplit : splitChar '\n' ((joinSep ' ' l1).data ++ '\n' ::
      ((joinSep ' ' l2).data ++ '\n' :: (joinSep ' ' l3).data)) =
      [(joinSep ' ' l1).data, (joinSep ' ' l2).data, (joinSep ' ' l3).data] := by
    unfold splitChar
    rw [splitCharGo_append '\n' (joinSep ' ' l1).data []
      ((joinSep ' ' l2).data ++ '\n' :: (joinSep ' ' l3).data) (nl_notin_joined l1 h1)]
    rw [splitCharGo_append '\n' (joinSep ' ' l2).data [] (joinSep ' ' l3).data
      (nl_notin_joined l2 h2)]
    rw [splitCharGo_not_mem '\n' (joinSep ' ' l3).data [] (nl_notin_joined l3 h3)]
    simp
  rw [hsplit]
  show [countLine syl (String.mk (joinSep ' ' l1).data),
    countLine syl (String.mk (joinSep ' ' l2).data),
    countLine syl (String.mk (joinSep ' ' l3).data)] = _
  rw [mk_data, mk_data, mk_data]
  rw [countLine_joinSep syl l1 h1, countLine_joinSep syl l2 h2, countLine_joinSep syl l3 h3]

/-! ## Compose-level lemmas -/

theorem assemble3_some {x y z : Option (List String)} {l1 l2 l3 : List String}
    (h : assemble3 x y z = some (l1, l2, l3)) :
    x = some l1 ∧ y = some l2 ∧ z = some l3 := by
  cases x with
  | none => exact Option.noConfusion h
  | some a =>
    cases y with
    | none => exact Option.noConfusion h
    | some b =>
      cases z with
      | none => exact Option.noConfusion h
      | some c =>
        have h2 : ((a, b, c) : List String × List String × List String) = (l1, l2, l3) :=
          Option.some.inj h
        injection h2 with ha hbc
        injection hbc with hb hc
        exact ⟨by rw [ha], by rw [hb], by rw [hc]⟩

set_option maxHeartbeats 2000000 in
theorem composeStrict_props (ext : Ext) (text : String) (seed : Nat)
    (l1 l2 l3 : List String)
    (h : composeStrict ext text seed = some (l1, l2, l3)) :
    (sumSyl (syllablesInWord ext) l1 = 5 ∧ sumSyl (syllablesInWord ext) l2 = 7 ∧
      sumSyl (syllablesInWord ext) l3 = 5) ∧
    (∀ w ∈ l1 ++ l2 ++ l3,
      w ∈ (buildPool ext text (mask32 (if seed = 0 then 1 else seed))).1 ∨
      w ∈ GLUE_WORDS ∨
      w ∈ (TOPIC_FILLERS (scoreTopic (rawTokens text))).f1 ++
        (TOPIC_FILLERS (scoreTopic (rawTokens text))).f2) := by
  obtain ⟨ho1, ho2, ho3⟩ := assemble3_some h
  have htp : (buildPool ext text (mask32 (if seed = 0 then 1 else seed))).2.1 =
      scoreTopic (rawTokens text) := buildPool_topic ext text _
  refine ⟨⟨packLine_sum ho1, packLine_sum ho2, packLine_sum ho3⟩, ?_⟩
  intro w hw
  rcases List.mem_append.mp hw with hw12 | hw3
  · rcases List.mem_append.mp hw12 with hw1 | hw2
    · have hm := packLine_mem ho1 w hw1
      rw [htp] at hm
      exact hm
    · have hm := packLine_mem ho2 w hw2
      rw [htp] at hm
      exact hm
  · have hm := packLine_mem ho3 w hw3
    rw [htp] at hm
    exact hm

theorem composeStrict_of_lines (ext : Ext) (text : String) (seed : Nat)
    (l1 l2 l3 : List String)
    (h : composeStrict ext text seed = some (l1, l2, l3)) :
    composeHaikuRiTa ext text seed =
      joinSep '\n' [joinSep ' ' l1, joinSep ' ' l2, joinSep ' ' l3] := by
  unfold composeHaikuRiTa
  rw [h]

/-! ## Fixed-vocabulary facts (checked by evaluation) -/

theorem glue_wordOK : ∀ g ∈ GLUE_WORDS, wordOK g = true := by decide

theorem nouns_wordOK : ∀ tp : TopicKey, ∀ x ∈ (TOPIC_FILLERS tp).nouns, wordOK x = true := by
  intro tp
  cases tp <;> decide

theorem fillers_wordOK : ∀ tp : TopicKey,
    ∀ x ∈ (TOPIC_FILLERS tp).f1 ++ (TOPIC_FILLERS tp).f2, wordOK x = true := by
  intro tp
  cases tp <;> decide

theorem kigo_wordOK : ∀ tp : TopicKey, ∀ ph ∈ (TOPIC_FILLERS tp).kigo,
    ∀ cs ∈ splitChar ' ' ph.data, wordOK (String.mk cs) = true := by
  intro tp
  cases tp <;> decide

/-- Every word that a successful strict composition can place in a line is
word-shaped, provided the imagery words of the input are. -/
theorem line_words_ok (ext : Ext) (text : String) (t0 : Nat)
    (hhyg : ∀ w ∈ imageryWords ext text, wordOK w = true) :
    ∀ w, (w ∈ (buildPool ext text t0).1 ∨ w ∈ GLUE_WORDS ∨
      w ∈ (TOPIC_FILLERS (scoreTopic (rawTokens text))).f1 ++
        (TOPIC_FILLERS (scoreTopic (rawTokens text))).f2) → wordOK w = true := by
  intro w hw
  rcases hw with hpool | hglue | hfill
  · rcases buildPool_mem ext text t0 w hpool with ⟨ph, hph, hcs⟩ | ⟨himg, -⟩ | hnoun
    · rw [List.mem_map] at hcs
      obtain ⟨cs, hcsm, hcse⟩ := hcs
      rw [← hcse]
      exact kigo_wordOK _ ph hph cs hcsm
    · exact hhyg w himg
    · exact nouns_wordOK _ w hnoun
  · exact glue_wordOK w hglue
  · exact fillers_wordOK _ w hfill

/-- The three lines of a successful strict composition consist of
word-shaped tokens, provided the imagery words of the input are. -/
theorem strict_lines_wordOK (ext : Ext) (text : String) (seed : Nat)
    (l1 l2 l3 : List String)
    (hstrict : composeStrict ext text seed = some (l1, l2, l3))
    (hhyg : ∀ w ∈ imageryWords ext text, wordOK w = true) :
    (∀ w ∈ l1, wordOK w = true) ∧ (∀ w ∈ l2, wordOK w = true) ∧
      (∀ w ∈ l3, wordOK w = true) := by
  have hp := composeStrict_props ext text seed l1 l2 l3 hstrict
  have hwOK := line_words_ok ext text (mask32 (if seed = 0 then 1 else seed)) hhyg
  refine ⟨fun w hw => hwOK w (hp.2 w ?_), fun w hw => hwOK w (hp.2 w ?_),
    fun w hw => hwOK w (hp.2 w ?_)⟩
  · exact List.mem_append_left _ (List.mem_append_left _ hw)
  · exact List.mem_append_left _ (List.mem_append_right _ hw)
  · exact List.mem_append_right _ hw

/-! ## Head of the descending stable sort (for the topic classifier) -/

theorem head_orderedInsert {α : Type} (r : α → α → Prop) [DecidableRel r] (x y : α)
    (l : List α) (h : l.head? = some y) :
    (List.orderedInsert r x l).head? = some (if r x y then x else y) := by
  cases l with
  | nil => simp at h
  | cons a as =>
    have hy : a = y := by simpa using h
    subst hy
    by_cases hr : r x a
    · rw [List.orderedInsert, if_pos hr]
      simp [hr]
    · rw [List.orderedInsert, if_neg hr]
      simp [hr]

theorem head_insertionSort_firstSel :
    ∀ (x : TopicKey × Nat) (xs : List (TopicKey × Nat)),
      (List.insertionSort (fun a b : TopicKey × Nat => b.2 ≤ a.2) (x :: xs)).head? =
        some (firstSel x xs)
  | _, [] => rfl
  | x, y :: ys => by
    have ih := head_insertionSort_firstSel y ys
    show (List.orderedInsert (fun a b : TopicKey × Nat => b.2 ≤ a.2) x
        (List.insertionSort (fun a b : TopicKey × Nat => b.2 ≤ a.2) (y :: ys))).head? = _
    rw [head_orderedInsert (fun a b : TopicKey × Nat => b.2 ≤ a.2) x (firstSel y ys) _ ih]
    rfl

set_option maxHeartbeats 4000000 in
theorem sel6 (tb tf tm ts tc tg : Nat) :
    (if 0 < (firstSel (TopicKey.beach, tb) [(TopicKey.forest, tf), (TopicKey.mountain, tm),
        (TopicKey.snow, ts), (TopicKey.city, tc), (TopicKey.generic, tg)]).2
      then (firstSel (TopicKey.beach, tb) [(TopicKey.forest, tf), (TopicKey.mountain, tm),
        (TopicKey.snow, ts), (TopicKey.city, tc), (TopicKey.generic, tg)]).1
      else TopicKey.generic) =
    (if max tb (max tf (max tm (max ts (max tc tg)))) = 0 then TopicKey.generic
     else if tb = max tb (max tf (max tm (max ts (max tc tg)))) then TopicKey.beach
     else if tf = max tb (max tf (max tm (max ts (max tc tg)))) then TopicKey.forest
     else if tm = max tb (max tf (max tm (max ts (max tc tg)))) then TopicKey.mountain
     else if ts = max tb (max tf (max tm (max ts (max tc tg)))) then TopicKey.snow
     else if tc = max tb (max tf (max tm (max ts (max tc tg)))) then TopicKey.city
     else TopicKey.generic) := by
  have e4 : firstSel (TopicKey.city, tc) [(TopicKey.generic, tg)] =
      if tg ≤ tc then (TopicKey.city, tc) else (TopicKey.generic, tg) := rfl
  have s4 : (firstSel (TopicKey.city, tc) [(TopicKey.generic, tg)]).2 = max tg tc := by
    rw [e4]
    rcases le_or_lt tg tc with h | h
    · rw [if_pos h]
      show tc = max tg tc
      omega
    · rw [if_neg (Nat.not_le.mpr h)]
      show tg = max tg tc
      omega
  have e3 : firstSel (TopicKey.snow, ts)
        [(TopicKey.city, tc), (TopicKey.generic, tg)] =
      if max tg tc ≤ ts then (TopicKey.snow, ts)
      else firstSel (TopicKey.city, tc) [(TopicKey.generic, tg)] := by
    show (if (firstSel (TopicKey.city, tc) [(TopicKey.generic, tg)]).2 ≤ ts
        then (TopicKey.snow, ts)
        else firstSel (TopicKey.city, tc) [(TopicKey.generic, tg)]) = _
    rw [s4]
  have s3 : (firstSel (TopicKey.snow, ts)
        [(TopicKey.city, tc), (TopicKey.generic, tg)]).2 = max (max tg tc) ts := by
    rw [e3]
    rcases le_or_lt (max tg tc) ts with h | h
    · rw [if_pos h]
      show ts = max (max tg tc) ts
      omega
    · rw [if_neg (Nat.not_le.mpr h), s4]
      omega
  have e2 : firstSel (TopicKey.mountain, tm)
        [(TopicKey.snow, ts), (TopicKey.city, tc), (TopicKey.generic, tg)] =
      if max (max tg tc) ts ≤ tm then (TopicKey.mountain, tm)
      else firstSel (TopicKey.snow, ts) [(TopicKey.city, tc), (TopicKey.generic, tg)] := by
    show (if (firstSel (TopicKey.snow, ts)
          [(TopicKey.city, tc), (TopicKey.generic, tg)]).2 ≤ tm
        then (TopicKey.mountain, tm)
        else firstSel (TopicKey.snow, ts) [(TopicKey.city, tc), (TopicKey.generic, tg)]) = _
    rw [s3]
  have s2 : (firstSel (TopicKey.mountain, tm)
        [(TopicKey.snow, ts), (TopicKey.city, tc), (TopicKey.generic, tg)]).2 =
      max (max (max tg tc) ts) tm := by
    rw [e2]
    rcases le_or_lt (max (max tg tc) ts) tm with h | h
    · rw [if_pos h]
      show tm = max (max (max tg tc) ts) tm
      omega
    · rw [if_neg (Nat.not_le.mpr h), s3]
      omega
  have e1 : firstSel (TopicKey.forest, tf)
        [(TopicKey.mountain, tm), (TopicKey.snow, ts), (TopicKey.city, tc),
          (TopicKey.generic, tg)] =
      if max (max (max tg tc) ts) tm ≤ tf then (TopicKey.forest, tf)
      else firstSel (TopicKey.mountain, tm)
        [(TopicKey.snow, ts), (TopicKey.city, tc), (TopicKey.generic, tg)] := by
    show (if (firstSel (TopicKey.mountain, tm)
          [(TopicKey.snow, ts), (TopicKey.city, tc), (TopicKey.generic, tg)]).2 ≤ tf
        then (TopicKey.forest, tf)
        else firstSel (TopicKey.mountain, tm)
          [(TopicKey.snow, ts), (TopicKey.city, tc), (TopicKey.generic, tg)]) = _
    rw [s2]
  have s1 : (firstSel (TopicKey.forest, tf)
        [(TopicKey.mountain, tm), (TopicKey.snow, ts), (TopicKey.city, tc),
          (TopicKey.generic, tg)]).2 = max (max (max (max tg tc) ts) tm) tf := by
    rw [e1]
    rcases le_or_lt (max (max (max tg tc) ts) tm) tf with h | h
    · rw [if_pos h]
      show tf = max (max (max (max tg tc) ts) tm) tf
      omega
    · rw [if_neg (Nat.not_le.mpr h), s2]
      omega
  have e0 : firstSel (TopicKey.beach, tb)
        [(TopicKey.forest, tf), (TopicKey.mountain, tm), (TopicKey.snow, ts),
          (TopicKey.city, tc), (TopicKey.generic, tg)] =
      if max (max (max (max tg tc) ts) tm) tf ≤ tb then (TopicKey.beach, tb)
      else firstSel (TopicKey.forest, tf)
        [(TopicKey.mountain, tm), (TopicKey.snow, ts), (TopicKey.city, tc),
          (TopicKey.generic, tg)] := by
    show (if (firstSel (TopicKey.forest, tf)
          [(TopicKey.mountain, tm), (TopicKey.snow, ts), (TopicKey.city, tc),
            (TopicKey.generic, tg)]).2 ≤ tb
        then (TopicKey.beach, tb)
        else firstSel (TopicKey.forest, tf)
          [(TopicKey.mountain, tm), (TopicKey.snow, ts), (TopicKey.city, tc),
            (TopicKey.generic, tg)]) = _
    rw [s1]
  have s0 : (firstSel (TopicKey.beach, tb)
        [(TopicKey.forest, tf), (TopicKey.mountain, tm), (TopicKey.snow, ts),
          (TopicKey.city, tc), (TopicKey.generic, tg)]).2 =
      max (max (max (max (max tg tc) ts) tm) tf) tb := by
    rw [e0]
    rcases le_or_lt (max (max (max (max tg tc) ts) tm) tf) tb with h | h
    · rw [if_pos h]
      show tb = max (max (max (max (max tg tc) ts) tm) tf) tb
      omega
    · rw [if_neg (Nat.not_le.mpr h), s1]
      omega
  rw [s0, e0, e1, e2, e3, e4]
  split_ifs <;> first | rfl | omega

/-! ## Bounds for the loose fallback, glue counting, banned-word facts -/

theorem looseGo_len (syl : String → Nat) (target : Nat) :
    ∀ (todo out : List String) (acc : Nat),
      (looseGo syl target todo out acc).length ≤ out.length + todo.length
  | [], out, acc => by
    simp [looseGo]
  | w :: rest, out, acc => by
    simp only [looseGo]
    by_cases hc : acc + syl w ≤ target
    · rw [if_pos hc]
      split
      · show (out ++ [w]).length ≤ out.length + (w :: rest).length
        simp only [List.length_append, List.length_cons, List.length_nil]
        omega
      · have ih := looseGo_len syl target rest (out ++ [w], acc + syl w).1
          (out ++ [w], acc + syl w).2
        have hl : ((out ++ [w] : List String), acc + syl w).1.length = out.length + 1 := by
          simp [List.length_append]
        calc (looseGo syl target rest (out ++ [w], acc + syl w).1
              (out ++ [w], acc + syl w).2).length
            ≤ (out ++ [w], acc + syl w).1.length + rest.length := ih
          _ ≤ out.length + (w :: rest).length := by
              rw [hl]
              simp only [List.length_cons]
              omega
    · rw [if_neg hc]
      split
      · show out.length ≤ out.length + (w :: rest).length
        omega
      · have ih := looseGo_len syl target rest (out, acc).1 (out, acc).2
        calc (looseGo syl target rest (out, acc).1 (out, acc).2).length
            ≤ (out, acc).1.length + rest.length := ih
          _ ≤ out.length + (w :: rest).length := by
              simp only [List.length_cons]
              omega

theorem glue_filter_split : ∀ ws : List String,
    (ws.filter (fun w => isGlue w)).length +
      (ws.filter (fun w => !isGlue w)).length = ws.length
  | [] => rfl
  | w :: ws => by
    by_cases hg : isGlue w = true
    · rw [List.filter_cons_of_pos (by simpa using hg),
        List.filter_cons_of_neg (by simp [hg])]
      simp only [List.length_cons]
      have := glue_filter_split ws
      omega
    · have hg2 : isGlue w = false := by simpa using hg
      rw [List.filter_cons_of_neg (by simpa using hg2),
        List.filter_cons_of_pos (by simp [hg2])]
      simp only [List.length_cons]
      have := glue_filter_split ws
      omega

theorem not_mem_of_contains_false {l : List String} {w : String}
    (h : l.contains w = false) : w ∉ l := by
  intro hm
  have ht : l.contains w = true := List.elem_eq_true_of_mem hm
  rw [ht] at h
  exact Bool.noConfusion h

theorem beach_banned_lower :
    (TOPIC_FILLERS TopicKey.beach).banned.map lowerStr =
      ["snow", "ice", "winter", "icicle", "frost", "drifts", "white", "hush"] := by decide

theorem beach_nouns_not_banned : ∀ w ∈ (TOPIC_FILLERS TopicKey.beach).nouns,
    w ∉ (["snow", "ice", "winter", "icicle", "frost", "drifts", "white", "hush"] :
      List String) := by decide

theorem beach_fillers_not_banned :
    ∀ w ∈ (TOPIC_FILLERS TopicKey.beach).f1 ++ (TOPIC_FILLERS TopicKey.beach).f2,
    w ∉ (["snow", "ice", "winter", "icicle", "frost", "drifts", "white", "hush"] :
      List String) := by decide

theorem glue_not_banned : ∀ w ∈ GLUE_WORDS,
    w ∉ (["snow", "ice", "winter", "icicle", "frost", "drifts", "white", "hush"] :
      List String) := by decide

theorem beach_kigo_not_banned : ∀ ph ∈ (TOPIC_FILLERS TopicKey.beach).kigo,
    ∀ cs ∈ splitChar ' ' ph.data, String.mk cs ∉
      (["snow", "ice", "winter", "icicle", "frost", "drifts", "white", "hush"] :
        List String) := by decide

/-! ## The claims -/

/-- C1: whenever composition returns via the natural-or-exact path (the
strict path packs all three lines, the loose fallback is not invoked),
`count575` of the returned haiku string is exactly `[5, 7, 5]`.  The
hygiene hypothesis states that the external tokenizer produces word-shaped
tokens (non-empty, free of whitespace), the shape every real tokenizer
output has. -/
theorem count575_of_strict_path (ext : Ext) (text : String) (seed : Nat)
    (l1 l2 l3 : List String)
    (hstrict : composeStrict ext text seed = some (l1, l2, l3))
    (hhyg : ∀ w ∈ imageryWords ext text, wordOK w = true) :
    count575 (syllablesInWord ext) (composeHaikuRiTa ext text seed) = [5, 7, 5] := by
  obtain ⟨h1, h2, h3⟩ := strict_lines_wordOK ext text seed l1 l2 l3 hstrict hhyg
  have hp := composeStrict_props ext text seed l1 l2 l3 hstrict
  rw [composeStrict_of_lines ext text seed l1 l2 l3 hstrict]
  rw [count575_joined (syllablesInWord ext) l1 l2 l3 h1 h2 h3]
  rw [hp.1.1, hp.1.2.1, hp.1.2.2]

/-- Witness for C1 at concrete services, text and seed. -/
theorem count575_of_strict_path_witness :
    count575 (syllablesInWord demoExt) (composeHaikuRiTa demoExt "sun and cloud" 3) =
      [5, 7, 5] :=
  count575_of_strict_path demoExt "sun and cloud" 3
    ["wind", "to", "reeds", "cloud", "and"]
    ["cloud", "through", "wind", "stones", "stones", "reeds", "reeds"]
    ["sun", "stones", "wind", "wind", "with"] (by decide) (by decide)

/-- C2: the composer is a pure deterministic function of the external
services, the text and the seed: all randomness is drawn from the
generator seeded from the seed argument and threaded through the
computation, so two invocations on the same input agree. -/
theorem composeHaiku_deterministic (ext : Ext) (text : String) (seed : Nat) :
    composeHaikuRiTa ext text seed = composeHaikuRiTa ext text seed := rfl

/-- C3 (amended): the two packers never select a token with syllable count
0 — `packNatural` under the assumption that glue words have positive
counts (the alternate-source filter of line 128 checks only the budget,
so a zero-count glue word would slip through), `packExact`
unconditionally.  The loose fallback does select zero-count tokens; see
the counterexample. -/
theorem packers_select_positive_syllables (syl : String → Nat) (pool : List String)
    (target : Nat) (topic : TopicKey) (t minWords : Nat)
    (Hglue : ∀ g ∈ GLUE_WORDS, 1 ≤ syl g) (Hthe : syl "the" = 1) :
    (∀ ws, (packNatural syl pool target topic t minWords).1 = some ws →
      ∀ w ∈ ws, 0 < syl w) ∧
    (∀ ws, (packExact syl pool target topic t).1 = some ws → ∀ w ∈ ws, 0 < syl w) :=
  ⟨fun _ h => packNatural_pos Hglue Hthe h,
   fun _ h w hw => (packExact_some_props h).2.2.1 w hw⟩

/-- Witness for the amended C3 at concrete inputs. -/
theorem packers_select_positive_syllables_witness : 0 < demoSyl "on" :=
  (packers_select_positive_syllables demoSyl ["sun", "sea", "cloud"] 5 TopicKey.generic 0 3
    (by decide) (by decide)).1 ["sun", "on", "sea", "sea", "sea"] (by decide) "on" (by decide)

/-- Counterexample to C3 as stated: the loose fallback line operation
selects a token whose syllable count is 0 (a token with no ASCII letter
counts 0, yet the greedy fallback admits it, since 0 always fits the
budget). -/
theorem fallback_selects_zero_syllable_token :
    syllablesInWord extC3 "αβγ" = 0 ∧
    ("αβγ" : String) ∈ looseGo (syllablesInWord extC3) 5
      (imageryWords extC3 "αβγ") [] 0 ∧
    fallbackLoose extC3 "αβγ" = "αβγ\nαβγ\nαβγ" :=
  ⟨by decide, by decide, by decide⟩

/-- C4 (amended): a line returned by `packNatural` holds no two adjacent
glue words, provided the pool is glue-free, glue words have positive
counts, and the target is less than `2 * ceil06 minWords + 2` (the three
line calls use targets 5 and 7 with minWords 3 and 4, satisfying this).
Without the pool hypothesis the property fails; see the counterexample. -/
theorem packNatural_no_adjacent_glue (syl : String → Nat) (pool : List String)
    (target : Nat) (topic : TopicKey) (t minWords : Nat) (ws : List String)
    (Hpool : ∀ w ∈ pool, isGlue w = false)
    (Hglue : ∀ g ∈ GLUE_WORDS, 1 ≤ syl g) (Hthe : syl "the" = 1)
    (Harith : target < 2 * ceil06 minWords + 2)
    (h : (packNatural syl pool target topic t minWords).1 = some ws) :
    adjGlue ws = false :=
  packNatural_noadj Hpool Hglue Hthe Harith h

/-- Witness for the amended C4 at concrete inputs. -/
theorem packNatural_no_adjacent_glue_witness :
    adjGlue ["sun", "on", "sea", "sea", "sea"] = false :=
  packNatural_no_adjacent_glue demoSyl ["sun", "sea", "cloud"] 5 TopicKey.generic 0 3
    ["sun", "on", "sea", "sea", "sea"] (by decide) (by decide) (by decide) (by decide)
    (by decide)

/-- Counterexample to C4 as stated (over every pool, target, seed and
minWords): with a pool of one 2-syllable word and target 4, `packNatural`
returns a line whose second and third words are both glue words — the
alternate-source branch of line 128 draws a glue word with no adjacency
guard. -/
theorem packNatural_adjacent_glue_counterexample :
    (packNatural demoSyl ["sunny"] 4 TopicKey.generic 0 0).1 =
      some ["sunny", "on", "and"] ∧
    adjGlue ["sunny", "on", "and"] = true :=
  ⟨by decide, by decide⟩

/-- C5: a line returned by `packNatural` satisfies the three naturalness
constraints of line 139: word count at least `minWords`, imagery count at
least `ceil06 minWords`, glue count at most `ceilHalf` of the word
count. -/
theorem packNatural_naturalness_bounds {syl : String → Nat} {pool : List String}
    {target : Nat} {topic : TopicKey} {t minWords : Nat} {ws : List String}
    (h : (packNatural syl pool target topic t minWords).1 = some ws) :
    minWords ≤ ws.length ∧
    ceil06 minWords ≤ (ws.filter (fun w => !isGlue w)).length ∧
    (ws.filter (fun w => isGlue w)).length ≤ ceilHalf ws.length := by
  obtain ⟨-, -, hmin, himg, hglue⟩ := packNatural_some_props h
  have hsplit := glue_filter_split ws
  exact ⟨hmin, himg, by omega⟩

/-- Witness for C5 at concrete inputs. -/
theorem packNatural_naturalness_bounds_witness :
    3 ≤ (["sun", "on", "sea", "sea", "sea"] : List String).length ∧
    ceil06 3 ≤ ((["sun", "on", "sea", "sea", "sea"] : List String).filter
      (fun w => !isGlue w)).length ∧
    ((["sun", "on", "sea", "sea", "sea"] : List String).filter
      (fun w => isGlue w)).length ≤
      ceilHalf (["sun", "on", "sea", "sea", "sea"] : List String).length :=
  @packNatural_naturalness_bounds demoSyl ["sun", "sea", "cloud"] 5 TopicKey.generic 0 3
    ["sun", "on", "sea", "sea", "sea"] (by decide)

set_option maxHeartbeats 1000000 in
/-- C6: for every token list the topic classifier returns the topic with
the strictly highest score, breaking ties by the fixed declaration order
beach, forest, mountain, snow, city, generic, and returns generic
whenever the best score is 0 — the head of the descending stable sort
coincides with the specification-level classifier. -/
theorem scoreTopic_first_highest_spec (tokens : List String) :
    scoreTopic tokens = classifyTopicSpec tokens := by
  simp only [scoreTopic, classifyTopicSpec, topicOrder, List.map_cons, List.map_nil]
  rw [head_insertionSort_firstSel]
  exact sel6 (topicScore tokens TopicKey.beach) (topicScore tokens TopicKey.forest)
    (topicScore tokens TopicKey.mountain) (topicScore tokens TopicKey.snow)
    (topicScore tokens TopicKey.city) (topicScore tokens TopicKey.generic)

/-- C7 (amended): when the topic classifies as beach and composition
returns via the strict path, no word of the returned haiku belongs to the
beach banned set — banned words are filtered out of the imagery pool, and
the beach nouns, fillers, kigo tokens and glue words contain none.  On
the loose fallback path the property fails, since the fallback draws from
the unfiltered imagery words; see the counterexample. -/
theorem strict_beach_output_avoids_banned (ext : Ext) (text : String) (seed : Nat)
    (l1 l2 l3 : List String)
    (htop : scoreTopic (rawTokens text) = TopicKey.beach)
    (hstrict : composeStrict ext text seed = some (l1, l2, l3))
    (hhyg : ∀ w ∈ imageryWords ext text, wordOK w = true) :
    ∀ w ∈ (wsTokens (composeHaikuRiTa ext text seed).data).map String.mk,
      w ∉ (["snow", "ice", "winter", "icicle", "frost", "drifts", "white", "hush"] :
        List String) := by
  obtain ⟨h1, h2, h3⟩ := strict_lines_wordOK ext text seed l1 l2 l3 hstrict hhyg
  have hp := composeStrict_props ext text seed l1 l2 l3 hstrict
  rw [composeStrict_of_lines ext text seed l1 l2 l3 hstrict]
  rw [strict_haiku_words l1 l2 l3 h1 h2 h3]
  intro w hw
  rcases hp.2 w hw with hpool | hglue | hfill
  · rcases buildPool_mem ext text _ w hpool with ⟨ph, hph, hcs⟩ | ⟨-, hnb⟩ | hnoun
    · rw [htop] at hph
      rw [List.mem_map] at hcs
      obtain ⟨cs, hcsm, hcse⟩ := hcs
      rw [← hcse]
      exact beach_kigo_not_banned ph hph cs hcsm
    · rw [htop, beach_banned_lower] at hnb
      exact not_mem_of_contains_false hnb
    · rw [htop] at hnoun
      exact beach_nouns_not_banned w hnoun
  · exact glue_not_banned w hglue
  · rw [htop] at hfill
    exact beach_fillers_not_banned w hfill

/-- Witness for the amended C7 at the example input of the spec. -/
theorem strict_beach_output_avoids_banned_witness :
    ("waves" : String) ∉
      (["snow", "ice", "winter", "icicle", "frost", "drifts", "white", "hush"] :
        List String) :=
  strict_beach_output_avoids_banned demoExt
    "the waves crashed on the warm sand under a bright sky" 3
    ["waves", "warm", "dunes", "sand", "and"]
    ["bright", "through", "surf", "sea", "sky", "dunes", "tide"]
    ["waves", "sea", "surf", "foam", "with"]
    (by decide) (by decide) (by decide) "waves" (by decide)

/-- Counterexample to C7 as stated (over every beach-classified text and
seed): a beach-classified input containing the banned word white, under
services that make every strict line fail, falls back to the loose path
and returns a haiku consisting of that banned word. -/
theorem fallback_leaks_banned_word :
    scoreTopic (rawTokens "waves white") = TopicKey.beach ∧
    composeHaikuRiTa extC7 "waves white" 3 = "white\nwhite\nwhite" ∧
    ("white" : String) ∈
      (["snow", "ice", "winter", "icicle", "frost", "drifts", "white", "hush"] :
        List String) :=
  ⟨by decide, by decide, by decide⟩

/-- C8: the pool assembled by the pool builder is non-empty for every
text and generator state, because the nouns of the resolved topic are
always appended and every topic noun list is non-empty. -/
theorem pool_always_nonempty (ext : Ext) (text : String) (t : Nat) :
    (buildPool ext text t).1 ≠ [] ∧
    ∀ tp : TopicKey, (TOPIC_FILLERS tp).nouns ≠ [] :=
  ⟨buildPool_ne_nil ext text t, by intro tp; cases tp <;> decide⟩

/-- C9: every line operation is bounded — a natural line holds at most
160 words (one word per growth step of the fuelled loop), an exact line
at most two words more than the pool (each pass takes distinct pool
indices and each attempt adds at most two fillers), and a loose line at
most one word per pool element of its single pass.  The attempt counters
36, 6 and the step guard 160 appear as literal fuel in `packNatural`,
`natGrow` and `packExact`, so every invocation terminates. -/
theorem line_construction_bounded (syl : String → Nat) (pool : List String)
    (target : Nat) (topic : TopicKey) (t minWords : Nat) :
    (∀ ws, (packNatural syl pool target topic t minWords).1 = some ws →
      ws.length ≤ 160) ∧
    (∀ ws, (packExact syl pool target topic t).1 = some ws →
      ws.length ≤ pool.length + 2) ∧
    (∀ tg todo out acc, (looseGo syl tg todo out acc).length ≤
      out.length + todo.length) :=
  ⟨fun _ h => packNatural_len h,
   fun _ h => (packExact_some_props h).2.2.2,
   fun tg todo out acc => looseGo_len syl tg todo out acc⟩

/-- Witness for C9 at concrete inputs. -/
theorem line_construction_bounded_witness :
    (["sun", "on", "sea", "sea", "sea"] : List String).length ≤ 160 ∧
    (["sun", "sea", "cloud", "quiet"] : List String).length ≤
      (["sun", "sea", "cloud"] : List String).length + 2 :=
  ⟨(line_construction_bounded demoSyl ["sun", "sea", "cloud"] 5 TopicKey.generic 0 3).1
      ["sun", "on", "sea", "sea", "sea"] (by decide),
   (line_construction_bounded demoSyl ["sun", "sea", "cloud"] 5 TopicKey.generic 0 3).2.1
      ["sun", "sea", "cloud", "quiet"] (by decide)⟩

/-- C10: seeds 0 and 1 produce identical haikus for every text: the seed
is replaced by 1 when it is 0 before the generator state is formed, so 0
and 1 alias the same random stream. -/
theorem seed_zero_one_alias (ext : Ext) (text : String) :
    composeHaikuRiTa ext text 0 = composeHaikuRiTa ext text 1 := by
  unfold composeHaikuRiTa composeStrict
  rw [show mask32 (if (0 : Nat) = 0 then 1 else 0) =
    mask32 (if (1 : Nat) = 0 then 1 else 1) from rfl]

end Haiku
